import Mathlib

/-!
Verification of the fckloud repository: shallow embedding of the
confirmation engine (`crates/ndhcp`) and the address reconciliation
engine (`crates/kubem`), with theorems settling the specification claims.

Machine integers are modelled as `Nat`/`Int`.  The `f32` arithmetic of
`calc_confirmation_number` is modelled exactly: binary32 values are dyadic
numbers `m * 2 ^ (e - 23)` with a 24-bit significand, and every operation
rounds to nearest, ties to even, as IEEE 754 (and hence Rust) prescribes.
The computational model works on `ℕ`/`ℤ` only; rationals appear only in
specification-level definitions and proofs.
-/

namespace Fckloud

/-! ## Exact model of `f32` rounding -/

/-- Fuel-driven floor of the base-2 logarithm: `log2fuel fuel n` equals
`⌊log₂ n⌋` whenever `n ≤ fuel` and `1 ≤ n`. -/
def log2fuel : ℕ → ℕ → ℕ
  | 0, _ => 0
  | fuel + 1, n => if n < 2 then 0 else log2fuel fuel (n / 2) + 1

/-- `⌊log₂ n⌋` for `n ≥ 1` (junk value `0` at `0`). -/
def log2floor (n : ℕ) : ℕ := log2fuel n n

/-- Round the fraction `a / b` (with `b > 0`) to the nearest natural number,
ties to even. -/
def rneFrac (a b : ℕ) : ℕ :=
  let f := a / b
  let r := a % b
  if 2 * r < b then f
  else if b < 2 * r then f + 1
  else if f % 2 = 0 then f else f + 1

/-- The binary exponent of the positive fraction `a / b`: the unique `e` with
`2 ^ e ≤ a / b < 2 ^ (e + 1)`. -/
def elogFrac (a b : ℕ) : ℤ :=
  let e0 : ℤ := (log2floor a : ℤ) - (log2floor b : ℤ)
  if 0 ≤ e0 then (if 2 ^ e0.toNat * b ≤ a then e0 else e0 - 1)
  else (if b ≤ a * 2 ^ (-e0).toNat then e0 else e0 - 1)

/-- A positive binary32 value: the dyadic number `m * 2 ^ (e - 23)`.
`m = 0` encodes the value zero. -/
structure F32 where
  m : ℕ
  e : ℤ
deriving DecidableEq, Repr

/-- Round the nonnegative fraction `a / b` (with `b > 0`) to the nearest
binary32 value (round to nearest, ties to even). -/
def f32ofFrac (a b : ℕ) : F32 :=
  if a = 0 then ⟨0, 0⟩
  else
    let e := elogFrac a b
    if 0 ≤ 23 - e then ⟨rneFrac (a * 2 ^ (23 - e).toNat) b, e⟩
    else ⟨rneFrac a (b * 2 ^ (e - 23).toNat), e⟩

/-- The exactly computed product of two binary32 values, rounded back to
binary32 — the model of `f32` multiplication. -/
def f32mul (x y : F32) : F32 :=
  if 0 ≤ x.e + y.e - 46 then f32ofFrac (x.m * y.m * 2 ^ (x.e + y.e - 46).toNat) 1
  else f32ofFrac (x.m * y.m) (2 ^ (46 - x.e - y.e).toNat)

/-- `ceil` of a binary32 value followed by `as usize`. -/
def ceilVal (x : F32) : ℕ :=
  if 0 ≤ x.e - 23 then x.m * 2 ^ (x.e - 23).toNat
  else (x.m + 2 ^ (23 - x.e).toNat - 1) / 2 ^ (23 - x.e).toNat

/-- `floor` of a binary32 value followed by `as usize`. -/
def floorVal (x : F32) : ℕ :=
  if 0 ≤ x.e - 23 then x.m * 2 ^ (x.e - 23).toNat
  else x.m / 2 ^ (23 - x.e).toNat

/-- The rational value denoted by a binary32 value (specification level). -/
def F32.val (x : F32) : ℚ := (x.m : ℚ) * 2 ^ (x.e - 23)

/-! ## `crates/ndhcp/src/providers.rs` -/

/-- The closed set of supported HTTP providers (`enum HttpProvider`). -/
inductive HttpProvider
  | HttpBin
deriving DecidableEq, Repr

/-! ## `crates/ndhcp/src/trust_factor.rs` -/

/-- `TrustFactorAuthority`: the user-override map
(`custom: HashMap<HttpProvider, usize>`) modelled as a partial function. -/
structure TrustFactorAuthority where
  custom : HttpProvider → Option ℕ

namespace TrustFactorAuthority

def LOW : ℕ := 1
def MED : ℕ := 2
def HIG : ℕ := 3

/-- `TrustFactorAuthority::is_valid`. -/
def is_valid (trust_factor : ℕ) : Bool :=
  trust_factor == LOW || trust_factor == MED || trust_factor == HIG

/-- `TrustFactorAuthority::default_trust_factor`. -/
def default_trust_factor : HttpProvider → ℕ
  | .HttpBin => LOW

/-- `TrustFactorAuthority::trust_factor`: the override if set, else the default. -/
def trust_factor (tfa : TrustFactorAuthority) (provider : HttpProvider) : ℕ :=
  (tfa.custom provider).getD (default_trust_factor provider)

/-- `TrustFactorAuthority::set_trust_factor`; the `assert!(is_valid)` panic is
modelled as `none`. -/
def set_trust_factor (tfa : TrustFactorAuthority) (provider : HttpProvider)
    (new_trust_factor : ℕ) : Option TrustFactorAuthority :=
  if is_valid new_trust_factor then
    some ⟨fun q => if q = provider then some new_trust_factor else tfa.custom q⟩
  else none

/-- Every override stored in the map is a valid trust factor.  This is an
invariant of the Rust struct: `custom` is only populated through
`set_trust_factor`, which asserts validity. -/
def Valid (tfa : TrustFactorAuthority) : Prop :=
  ∀ p w, tfa.custom p = some w → is_valid w

end TrustFactorAuthority

/-- The binary32 value of the Rust literal `0.67` (`COMPENSATION_FACTOR`). -/
def c67 : F32 := f32ofFrac 67 100

/-- `trust_factor_total as f32` conversion (round to nearest binary32). -/
def asF32 (n : ℕ) : F32 := f32ofFrac n 1

/-- Sum of the trust factors of a provider list (the fold inside
`calc_confirmation_number`). -/
def totalWeight (tfa : TrustFactorAuthority) (providers : List HttpProvider) : ℕ :=
  (providers.map tfa.trust_factor).sum

/-- `TrustFactorAuthority::calc_confirmation_number`.  The `unreachable!` on an
empty provider list is modelled as `none`.  `(total as f32 * 0.67).ceil() as
usize` is modelled by the exact binary32 pipeline: the `ceil`/`floor` of a
binary32 value is exactly representable, and `as usize` of the nonnegative
integral result is its integer value. -/
def calc_confirmation_number (tfa : TrustFactorAuthority)
    (providers : List HttpProvider) : Option ℕ :=
  let trust_factor_total := totalWeight tfa providers
  match providers.length with
  | 0 => none
  | 1 => some trust_factor_total
  | 2 => some (ceilVal (f32mul (asF32 trust_factor_total) c67))
  | _ + 3 => some (floorVal (f32mul (asF32 trust_factor_total) c67))

/-! ## Supporting lemmas for the confirmation-number claims -/

theorem trust_factor_pos (tfa : TrustFactorAuthority) (hv : tfa.Valid)
    (p : HttpProvider) : 1 ≤ tfa.trust_factor p := by
  unfold TrustFactorAuthority.trust_factor
  cases h : tfa.custom p with
  | none =>
      cases p
      decide
  | some w =>
      have := hv p w h
      simp only [TrustFactorAuthority.is_valid, TrustFactorAuthority.LOW,
        TrustFactorAuthority.MED, TrustFactorAuthority.HIG, Bool.or_eq_true,
        beq_iff_eq] at this
      simp only [Option.getD_some]
      omega

theorem trust_factor_le_three (tfa : TrustFactorAuthority) (hv : tfa.Valid)
    (p : HttpProvider) : tfa.trust_factor p ≤ 3 := by
  unfold TrustFactorAuthority.trust_factor
  cases h : tfa.custom p with
  | none =>
      cases p
      decide
  | some w =>
      have := hv p w h
      simp only [TrustFactorAuthority.is_valid, TrustFactorAuthority.LOW,
        TrustFactorAuthority.MED, TrustFactorAuthority.HIG, Bool.or_eq_true,
        beq_iff_eq] at this
      simp only [Option.getD_some]
      omega

theorem length_le_totalWeight (tfa : TrustFactorAuthority) (hv : tfa.Valid) :
    ∀ ps : List HttpProvider, ps.length ≤ totalWeight tfa ps := by
  intro ps
  induction ps with
  | nil => simp [totalWeight]
  | cons p ps ih =>
      have := trust_factor_pos tfa hv p
      simp only [totalWeight, List.map_cons, List.sum_cons, List.length_cons] at *
      omega

theorem totalWeight_le_three_mul (tfa : TrustFactorAuthority) (hv : tfa.Valid) :
    ∀ ps : List HttpProvider, totalWeight tfa ps ≤ 3 * ps.length := by
  intro ps
  induction ps with
  | nil => simp [totalWeight]
  | cons p ps ih =>
      have := trust_factor_le_three tfa hv p
      simp only [totalWeight, List.map_cons, List.sum_cons, List.length_cons] at *
      omega

/-- `⌊(m : ℚ) / d⌋` is natural division. -/
theorem intFloor_natDiv (m d : ℕ) (hd : 0 < d) :
    ⌊(m : ℚ) / (d : ℚ)⌋ = ((m / d : ℕ) : ℤ) := by
  have hd' : (0 : ℚ) < d := by exact_mod_cast hd
  rw [Int.floor_eq_iff]
  constructor
  · rw [le_div_iff₀ hd']
    exact_mod_cast Nat.div_mul_le_self m d
  · rw [div_lt_iff₀ hd']
    have hnat : m < (m / d + 1) * d := by
      calc m = d * (m / d) + m % d := (Nat.div_add_mod m d).symm
        _ < d * (m / d) + d := by have := Nat.mod_lt m hd; omega
        _ = (m / d + 1) * d := by ring
    exact_mod_cast hnat

/-- `⌈(m : ℚ) / d⌉` is the rounded-up natural division `(m + d - 1) / d`. -/
theorem intCeil_natDiv (m d : ℕ) (hd : 0 < d) :
    ⌈(m : ℚ) / (d : ℚ)⌉ = (((m + d - 1) / d : ℕ) : ℤ) := by
  have hd' : (0 : ℚ) < d := by exact_mod_cast hd
  rw [Int.ceil_eq_iff]
  have heu := Nat.div_add_mod (m + d - 1) d
  have hlt := Nat.mod_lt (m + d - 1) hd
  set q := (m + d - 1) / d with hq
  set r := (m + d - 1) % d with hr
  have h1 : m ≤ d * q := by omega
  have h2 : d * q < m + d := by omega
  have h1Q : (m : ℚ) ≤ (d : ℚ) * (q : ℚ) := by exact_mod_cast h1
  have h2Q : (d : ℚ) * (q : ℚ) < (m : ℚ) + d := by exact_mod_cast h2
  constructor
  · have hgoal : ((q : ℚ)) - 1 < (m : ℚ) / d := by
      rw [lt_div_iff₀ hd']
      nlinarith
    exact_mod_cast hgoal
  · have hgoal : (m : ℚ) / d ≤ (q : ℚ) := by
      rw [div_le_iff₀ hd']
      nlinarith
    exact_mod_cast hgoal

set_option maxRecDepth 4000 in
/-- Exact evaluation of the binary32 pipeline on every total weight that can
arise from at most 33 providers: for sums up to 99, the `f32` computation
`(T as f32) * 0.67f32` has the same ceiling and floor as the exact rational
`T * 67 / 100`. -/
theorem f32pipeline_eval (T : ℕ) (h : T ≤ 99) :
    ceilVal (f32mul (asF32 T) c67) = (T * 67 + 99) / 100 ∧
    floorVal (f32mul (asF32 T) c67) = T * 67 / 100 := by
  have H : ∀ t : ℕ, t < 100 →
      ceilVal (f32mul (asF32 t) c67) = (t * 67 + 99) / 100 ∧
      floorVal (f32mul (asF32 t) c67) = t * 67 / 100 := by decide
  exact H T (by omega)


/-! ## Claim C1 -/

/-- The authority used in the C1 counterexample: `HttpBin` overridden to the
high trust factor `3` (a valid configuration). -/
def tfaHigh : TrustFactorAuthority := ⟨fun _ => some 3⟩

theorem tfaHigh_valid : tfaHigh.Valid := by
  intro p w h
  injection h with h'
  rw [← h']
  decide

/-- C1 (counterexample): the claim says that with exactly two enabled
providers the threshold is `ceil(sum * 2/3)`.  With two providers of trust
factor 3 the weight sum is 6 and `ceil(6 * 2/3) = 4`, but the code computes
`ceil(6 as f32 * 0.67f32) = ceil(4.02) = 5`, because the compensation
constant is the `f32` literal `0.67`, not the rational `2/3`. -/
theorem c1_counterexample :
    tfaHigh.Valid ∧
    totalWeight tfaHigh [HttpProvider.HttpBin, HttpProvider.HttpBin] = 6 ∧
    calc_confirmation_number tfaHigh [HttpProvider.HttpBin, HttpProvider.HttpBin] = some 5 ∧
    some 5 ≠ some (Int.toNat ⌈(6 : ℚ) * (2 / 3)⌉) := by
  refine ⟨tfaHigh_valid, by decide, by decide, ?_⟩
  have h : ⌈(6 : ℚ) * (2 / 3)⌉ = 4 := by norm_num
  rw [h]
  decide

/-- C1 (amended): for every valid authority and every non-empty list of at
most 33 enabled providers, the confirmation number is the full weight sum for
exactly one provider, `ceil(sum * 0.67)` for exactly two, and
`floor(sum * 0.67)` for three or more — with the compensation constant `0.67`
(the value of the `f32` literal) instead of the claimed `2 / 3`.  In
particular, two providers whose weights sum to 3 get threshold
`ceil(3 * 0.67) = 3`, not `ceil(3 * 2/3) = 2`. -/
theorem c1_threshold_formula (tfa : TrustFactorAuthority) (ps : List HttpProvider)
    (hv : tfa.Valid) (hlen : ps.length ≤ 33) :
    (ps.length = 1 → calc_confirmation_number tfa ps = some (totalWeight tfa ps)) ∧
    (ps.length = 2 → calc_confirmation_number tfa ps =
        some (Int.toNat ⌈(totalWeight tfa ps : ℚ) * 67 / 100⌉)) ∧
    (3 ≤ ps.length → calc_confirmation_number tfa ps =
        some (Int.toNat ⌊(totalWeight tfa ps : ℚ) * 67 / 100⌋)) := by
  have hT : totalWeight tfa ps ≤ 99 := by
    have := totalWeight_le_three_mul tfa hv ps
    omega
  have heval := f32pipeline_eval (totalWeight tfa ps) hT
  have hcast : (totalWeight tfa ps : ℚ) * 67 / 100 =
      ((totalWeight tfa ps * 67 : ℕ) : ℚ) / ((100 : ℕ) : ℚ) := by
    push_cast
    ring
  refine ⟨?_, ?_, ?_⟩
  · intro hl
    simp [calc_confirmation_number, hl]
  · intro hl
    simp only [calc_confirmation_number, hl]
    rw [heval.1, hcast, intCeil_natDiv _ _ (by norm_num), Int.toNat_natCast]
    norm_num
  · intro hl
    obtain ⟨k, hk⟩ : ∃ k, ps.length = k + 3 := ⟨ps.length - 3, by omega⟩
    simp only [calc_confirmation_number, hk]
    rw [heval.2, hcast, intFloor_natDiv _ _ (by norm_num), Int.toNat_natCast]

/-- Witness for C1 (amended) at a concrete input: two providers with the
default weight 1 each, weight sum 2, threshold `ceil(2 * 0.67) = 2`. -/
theorem c1_threshold_formula_witness :
    calc_confirmation_number ⟨fun _ => none⟩ [HttpProvider.HttpBin, HttpProvider.HttpBin] =
      some (Int.toNat ⌈(totalWeight ⟨fun _ => none⟩
        [HttpProvider.HttpBin, HttpProvider.HttpBin] : ℚ) * 67 / 100⌉) :=
  (c1_threshold_formula ⟨fun _ => none⟩ [HttpProvider.HttpBin, HttpProvider.HttpBin]
    (fun p w h => by injection h) (by decide)).2.1 (by decide)


/-! ## Specification of the binary32 model -/

theorem log2fuel_spec :
    ∀ fuel n : ℕ, 1 ≤ n → n ≤ fuel →
      2 ^ log2fuel fuel n ≤ n ∧ n < 2 ^ (log2fuel fuel n + 1) := by
  intro fuel
  induction fuel with
  | zero => intro n h1 h2; omega
  | succ fuel ih =>
      intro n h1 h2
      simp only [log2fuel]
      by_cases hn : n < 2
      · simp only [hn, if_true]
        omega
      · simp only [hn, if_false]
        obtain ⟨hl, hr⟩ := ih (n / 2) (by omega) (by omega)
        set k := log2fuel fuel (n / 2) with hk
        have e1 : 2 ^ (k + 1) = 2 * 2 ^ k := by ring
        have e2 : 2 ^ (k + 1 + 1) = 2 * 2 ^ (k + 1) := by ring
        omega

theorem log2floor_spec (n : ℕ) (h : 1 ≤ n) :
    2 ^ log2floor n ≤ n ∧ n < 2 ^ (log2floor n + 1) :=
  log2fuel_spec n n h le_rfl

/-- Casting a natural power of two to `ℚ` matches `zpow` on nonnegative
integer exponents. -/
theorem cast_pow_toNat (k : ℤ) (hk : 0 ≤ k) :
    ((2 ^ k.toNat : ℕ) : ℚ) = (2 : ℚ) ^ k := by
  rw [Nat.cast_pow, Nat.cast_ofNat, ← zpow_natCast (2 : ℚ), Int.toNat_of_nonneg hk]

theorem elogFrac_spec (a b : ℕ) (ha : 0 < a) (hb : 0 < b) :
    (2 : ℚ) ^ elogFrac a b ≤ (a : ℚ) / b ∧ (a : ℚ) / b < 2 ^ (elogFrac a b + 1) := by
  obtain ⟨sa1, sa2⟩ := log2floor_spec a ha
  obtain ⟨sb1, sb2⟩ := log2floor_spec b hb
  set la := log2floor a
  set lb := log2floor b
  have hbQ : (0 : ℚ) < b := by exact_mod_cast hb
  have hb2 : (0 : ℚ) < ((2 ^ lb : ℕ) : ℚ) := by positivity
  -- the fraction lies strictly between `2 ^ (e0 - 1)` and `2 ^ (e0 + 1)`
  have qlow : (2 : ℚ) ^ ((la : ℤ) - lb - 1) < (a : ℚ) / b := by
    have hn : 2 ^ la * b < a * 2 ^ (lb + 1) := by
      nlinarith [sa1, sb2, pow_pos (by norm_num : 0 < 2) la, pow_pos (by norm_num : 0 < 2) (lb + 1)]
    have hnQ : ((2 ^ la : ℕ) : ℚ) * b < (a : ℚ) * ((2 ^ (lb + 1) : ℕ) : ℚ) := by
      exact_mod_cast hn
    have hrw : ((la : ℤ) - lb - 1) = (la : ℤ) - ((lb + 1 : ℕ) : ℤ) := by push_cast; ring
    rw [hrw, zpow_sub₀ (by norm_num), ← cast_pow_toNat (la : ℤ) (by positivity),
      ← cast_pow_toNat ((lb + 1 : ℕ) : ℤ) (by positivity)]
    rw [Int.toNat_natCast, Int.toNat_natCast, div_lt_div_iff (by positivity) hbQ]
    linarith
  have qhigh : (a : ℚ) / b < (2 : ℚ) ^ ((la : ℤ) - lb + 1) := by
    have hn : a * 2 ^ lb < 2 ^ (la + 1) * b := by
      nlinarith [sa2, sb1, pow_pos (by norm_num : 0 < 2) lb, pow_pos (by norm_num : 0 < 2) (la + 1)]
    have hnQ : (a : ℚ) * ((2 ^ lb : ℕ) : ℚ) < ((2 ^ (la + 1) : ℕ) : ℚ) * b := by
      exact_mod_cast hn
    have hrw : ((la : ℤ) - lb + 1) = ((la + 1 : ℕ) : ℤ) - ((lb : ℕ) : ℤ) := by push_cast; ring
    rw [hrw, zpow_sub₀ (by norm_num), ← cast_pow_toNat ((la + 1 : ℕ) : ℤ) (by positivity),
      ← cast_pow_toNat ((lb : ℕ) : ℤ) (by positivity)]
    rw [Int.toNat_natCast, Int.toNat_natCast, div_lt_div_iff hbQ (by positivity)]
    linarith
  -- the branch condition decides `2 ^ e0 ≤ a / b`
  have hcond : ∀ he0 : (0 : ℤ) ≤ (la : ℤ) - lb,
      (2 ^ ((la : ℤ) - lb).toNat * b ≤ a ↔ (2 : ℚ) ^ ((la : ℤ) - lb) ≤ (a : ℚ) / b) := by
    intro he0
    rw [le_div_iff₀ hbQ, ← cast_pow_toNat _ he0]
    constructor
    · intro h; exact_mod_cast h
    · intro h; exact_mod_cast h
  have hcondneg : ∀ _ : (la : ℤ) - lb < 0,
      (b ≤ a * 2 ^ (-((la : ℤ) - lb)).toNat ↔ (2 : ℚ) ^ ((la : ℤ) - lb) ≤ (a : ℚ) / b) := by
    intro he0
    have hpos : (0 : ℤ) ≤ -((la : ℤ) - lb) := by omega
    have hx : ((2 ^ (-((la : ℤ) - lb)).toNat : ℕ) : ℚ) = (2 : ℚ) ^ (-((la : ℤ) - lb)) :=
      cast_pow_toNat _ hpos
    have h2z : ((2 : ℚ) ^ ((la : ℤ) - lb)) * ((2 : ℚ) ^ (-((la : ℤ) - lb))) = 1 := by
      rw [← zpow_add₀ (by norm_num : (2 : ℚ) ≠ 0)]
      simp
    have hppos : (0 : ℚ) < (2 : ℚ) ^ (-((la : ℤ) - lb)) := by positivity
    rw [le_div_iff₀ hbQ]
    constructor
    · intro h
      have hQ : (b : ℚ) ≤ (a : ℚ) * ((2 : ℚ) ^ (-((la : ℤ) - lb))) := by
        rw [← hx]; exact_mod_cast h
      calc (2 : ℚ) ^ ((la : ℤ) - lb) * b
          ≤ (2 : ℚ) ^ ((la : ℤ) - lb) * ((a : ℚ) * (2 : ℚ) ^ (-((la : ℤ) - lb))) := by
            apply mul_le_mul_of_nonneg_left hQ (by positivity)
        _ = a := by
            rw [mul_comm (a : ℚ), ← mul_assoc, h2z, one_mul]
    · intro h
      have hb' : (b : ℚ) = (2 : ℚ) ^ (-((la : ℤ) - lb)) * ((2 : ℚ) ^ ((la : ℤ) - lb) * b) := by
        rw [← mul_assoc, ← zpow_add₀ (by norm_num : (2 : ℚ) ≠ 0)]
        simp
      have hQ : (b : ℚ) ≤ (a : ℚ) * ((2 : ℚ) ^ (-((la : ℤ) - lb))) := by
        rw [hb']
        calc (2 : ℚ) ^ (-((la : ℤ) - lb)) * ((2 : ℚ) ^ ((la : ℤ) - lb) * (b : ℚ))
            ≤ (2 : ℚ) ^ (-((la : ℤ) - lb)) * a := mul_le_mul_of_nonneg_left h (le_of_lt hppos)
          _ = (a : ℚ) * (2 : ℚ) ^ (-((la : ℤ) - lb)) := mul_comm _ _
      rw [← hx] at hQ
      exact_mod_cast hQ
  unfold elogFrac
  by_cases he0 : (0 : ℤ) ≤ (la : ℤ) - lb
  · simp only [he0, if_true]
    by_cases hc : 2 ^ ((la : ℤ) - lb).toNat * b ≤ a
    · simp only [hc, if_true]
      exact ⟨(hcond he0).mp hc, qhigh⟩
    · simp only [hc, if_false]
      have hnot : ¬ ((2 : ℚ) ^ ((la : ℤ) - lb) ≤ (a : ℚ) / b) := fun h => hc ((hcond he0).mpr h)
      push_neg at hnot
      refine ⟨le_of_lt ?_, ?_⟩
      · have : ((la : ℤ) - lb - 1) = (la : ℤ) - lb - 1 := rfl
        exact qlow
      · have : ((la : ℤ) - lb - 1 + 1) = (la : ℤ) - lb := by ring
        rw [this]
        exact hnot
  · simp only [he0, if_false]
    have he0' : (la : ℤ) - lb < 0 := by omega
    by_cases hc : b ≤ a * 2 ^ (-((la : ℤ) - lb)).toNat
    · simp only [hc, if_true]
      exact ⟨(hcondneg he0').mp hc, qhigh⟩
    · simp only [hc, if_false]
      have hnot : ¬ ((2 : ℚ) ^ ((la : ℤ) - lb) ≤ (a : ℚ) / b) := fun h => hc ((hcondneg he0').mpr h)
      push_neg at hnot
      refine ⟨le_of_lt qlow, ?_⟩
      have : ((la : ℤ) - lb - 1 + 1) = (la : ℤ) - lb := by ring
      rw [this]
      exact hnot


theorem rneFrac_ge (a b : ℕ) : a / b ≤ rneFrac a b := by
  unfold rneFrac
  dsimp only
  split_ifs <;> omega

theorem rneFrac_le (a b : ℕ) : rneFrac a b ≤ a / b + 1 := by
  unfold rneFrac
  dsimp only
  split_ifs <;> omega

/-- Round-to-nearest-even is monotone with respect to the fraction order. -/
theorem rneFrac_mono (a b c d : ℕ) (hb : 0 < b) (hd : 0 < d)
    (h : a * d ≤ c * b) : rneFrac a b ≤ rneFrac c d := by
  have hdiv : a / b ≤ c / d := by
    rw [Nat.le_div_iff_mul_le hd]
    have h1 : a / b * b ≤ a := Nat.div_mul_le_self a b
    have h3 : a / b * d * b ≤ c * b := by
      calc a / b * d * b = a / b * b * d := by ring
        _ ≤ a * d := Nat.mul_le_mul_right d h1
        _ ≤ c * b := h
    exact Nat.le_of_mul_le_mul_right h3 hb
  rcases Nat.lt_or_ge (a / b) (c / d) with hlt | hge
  · calc rneFrac a b ≤ a / b + 1 := rneFrac_le a b
      _ ≤ c / d := hlt
      _ ≤ rneFrac c d := rneFrac_ge c d
  · have heq : a / b = c / d := le_antisymm hdiv hge
    -- same integer part; compare the fractional parts
    have hfr : a % b * d ≤ c % d * b := by
      have ea := Nat.div_add_mod a b
      have ec := Nat.div_add_mod c d
      have hx : (b * (a / b) + a % b) * d ≤ (d * (c / d) + c % d) * b := by
        rw [ea, ec]; exact h
      have hexp : b * (a / b) * d + a % b * d ≤ d * (c / d) * b + c % d * b := by
        calc b * (a / b) * d + a % b * d = (b * (a / b) + a % b) * d := by ring
          _ ≤ (d * (c / d) + c % d) * b := hx
          _ = d * (c / d) * b + c % d * b := by ring
      have hsame : b * (a / b) * d = d * (c / d) * b := by
        rw [heq]; ring
      omega
    by_cases hA : 2 * (a % b) < b
    · have e1 : rneFrac a b = a / b := by
        unfold rneFrac
        dsimp only
        rw [if_pos hA]
      rw [e1, heq]
      exact rneFrac_ge c d
    · by_cases hB : b < 2 * (a % b)
      · have hgt2 : d < 2 * (c % d) := by
          have h6 : d * b < 2 * (c % d) * b := by nlinarith
          exact lt_of_mul_lt_mul_right h6 (Nat.zero_le b)
        have e1 : rneFrac a b = a / b + 1 := by
          unfold rneFrac
          dsimp only
          rw [if_neg hA, if_pos hB]
        have e2 : rneFrac c d = c / d + 1 := by
          unfold rneFrac
          dsimp only
          rw [if_neg (by omega), if_pos hgt2]
        rw [e1, e2, heq]
      · have htie : 2 * (a % b) = b := by omega
        have hge2 : d ≤ 2 * (c % d) := by
          have h6 : d * b ≤ 2 * (c % d) * b := by nlinarith
          exact le_of_mul_le_mul_right h6 hb
        by_cases hC : d < 2 * (c % d)
        · have e2 : rneFrac c d = c / d + 1 := by
            unfold rneFrac
            dsimp only
            rw [if_neg (by omega), if_pos hC]
          have := rneFrac_le a b
          rw [e2, ← heq]
          omega
        · have e1 : rneFrac a b = if (a / b) % 2 = 0 then a / b else a / b + 1 := by
            unfold rneFrac
            dsimp only
            rw [if_neg hA, if_neg hB]
          have e2 : rneFrac c d = if (c / d) % 2 = 0 then c / d else c / d + 1 := by
            unfold rneFrac
            dsimp only
            rw [if_neg (by omega), if_neg (by omega)]
          rw [e1, e2, heq]


theorem F32.val_nonneg (x : F32) : 0 ≤ x.val := by
  unfold F32.val
  positivity

/-- Structure of `f32ofFrac` on positive fractions: the mantissa is the
round-to-nearest-even of the input scaled into `[2^23, 2^24)`. -/
theorem f32ofFrac_cases (a b : ℕ) (ha : 0 < a) (hb : 0 < b) :
    ∃ A B : ℕ, 0 < B ∧ f32ofFrac a b = ⟨rneFrac A B, elogFrac a b⟩ ∧
      (A : ℚ) / B = ((a : ℚ) / b) * (2 : ℚ) ^ ((23 : ℤ) - elogFrac a b) := by
  unfold f32ofFrac
  rw [if_neg (by omega : ¬ a = 0)]
  dsimp only
  by_cases hc : (0 : ℤ) ≤ 23 - elogFrac a b
  · rw [if_pos hc]
    refine ⟨a * 2 ^ ((23 : ℤ) - elogFrac a b).toNat, b, hb, rfl, ?_⟩
    rw [Nat.cast_mul, cast_pow_toNat _ hc, mul_div_right_comm]
  · rw [if_neg hc]
    refine ⟨a, b * 2 ^ (elogFrac a b - 23).toNat, by positivity, rfl, ?_⟩
    have hpos : (0 : ℤ) ≤ elogFrac a b - 23 := by omega
    rw [Nat.cast_mul, cast_pow_toNat _ hpos, div_mul_eq_div_div]
    have hexp : ((23 : ℤ) - elogFrac a b) = -(elogFrac a b - 23) := by ring
    rw [hexp, zpow_neg, div_eq_mul_inv]

theorem f32ofFrac_val_lb (a b : ℕ) (ha : 0 < a) (hb : 0 < b) :
    (2 : ℚ) ^ elogFrac a b ≤ (f32ofFrac a b).val := by
  obtain ⟨A, B, hB, heq, hfrac⟩ := f32ofFrac_cases a b ha hb
  obtain ⟨hlo, _⟩ := elogFrac_spec a b ha hb
  rw [heq]
  show (2 : ℚ) ^ elogFrac a b ≤ (rneFrac A B : ℚ) * 2 ^ (elogFrac a b - 23)
  have hBQ : (0 : ℚ) < B := by exact_mod_cast hB
  have hscale : ((2 : ℚ) ^ (23 : ℕ)) ≤ (A : ℚ) / B := by
    rw [hfrac]
    calc ((2 : ℚ) ^ (23 : ℕ)) = (2 : ℚ) ^ elogFrac a b * 2 ^ ((23 : ℤ) - elogFrac a b) := by
          rw [← zpow_natCast (2 : ℚ) 23, ← zpow_add₀ (by norm_num : (2 : ℚ) ≠ 0)]
          congr 1
          push_cast
          ring
      _ ≤ ((a : ℚ) / b) * 2 ^ ((23 : ℤ) - elogFrac a b) :=
          mul_le_mul_of_nonneg_right hlo (by positivity)
  have hnat : 2 ^ 23 ≤ A / B := by
    rw [Nat.le_div_iff_mul_le hB]
    have := (le_div_iff₀ hBQ).mp hscale
    exact_mod_cast this
  have hrne : 2 ^ 23 ≤ rneFrac A B := le_trans hnat (rneFrac_ge A B)
  have hrneQ : ((2 : ℚ) ^ (23 : ℕ)) ≤ (rneFrac A B : ℚ) := by exact_mod_cast hrne
  calc (2 : ℚ) ^ elogFrac a b = (2 : ℚ) ^ (23 : ℕ) * 2 ^ (elogFrac a b - 23) := by
        rw [← zpow_natCast (2 : ℚ) 23, ← zpow_add₀ (by norm_num : (2 : ℚ) ≠ 0)]
        congr 1
        push_cast
        ring
    _ ≤ (rneFrac A B : ℚ) * 2 ^ (elogFrac a b - 23) :=
        mul_le_mul_of_nonneg_right hrneQ (by positivity)

theorem f32ofFrac_val_ub (a b : ℕ) (ha : 0 < a) (hb : 0 < b) :
    (f32ofFrac a b).val ≤ (2 : ℚ) ^ (elogFrac a b + 1) := by
  obtain ⟨A, B, hB, heq, hfrac⟩ := f32ofFrac_cases a b ha hb
  obtain ⟨_, hhi⟩ := elogFrac_spec a b ha hb
  rw [heq]
  show (rneFrac A B : ℚ) * 2 ^ (elogFrac a b - 23) ≤ (2 : ℚ) ^ (elogFrac a b + 1)
  have hBQ : (0 : ℚ) < B := by exact_mod_cast hB
  have hscale : (A : ℚ) / B < ((2 : ℚ) ^ (24 : ℕ)) := by
    rw [hfrac]
    calc ((a : ℚ) / b) * 2 ^ ((23 : ℤ) - elogFrac a b)
        < (2 : ℚ) ^ (elogFrac a b + 1) * 2 ^ ((23 : ℤ) - elogFrac a b) :=
          mul_lt_mul_of_pos_right hhi (by positivity)
      _ = ((2 : ℚ) ^ (24 : ℕ)) := by
          rw [← zpow_add₀ (by norm_num : (2 : ℚ) ≠ 0), ← zpow_natCast (2 : ℚ) 24]
          congr 1
          push_cast
          ring
  have hnat : A / B < 2 ^ 24 := by
    rw [Nat.div_lt_iff_lt_mul hB]
    have := (div_lt_iff₀ hBQ).mp hscale
    exact_mod_cast this
  have hrne : rneFrac A B ≤ 2 ^ 24 := le_trans (rneFrac_le A B) (by omega)
  have hrneQ : (rneFrac A B : ℚ) ≤ ((2 : ℚ) ^ (24 : ℕ)) := by exact_mod_cast hrne
  calc (rneFrac A B : ℚ) * 2 ^ (elogFrac a b - 23)
      ≤ ((2 : ℚ) ^ (24 : ℕ)) * 2 ^ (elogFrac a b - 23) :=
        mul_le_mul_of_nonneg_right hrneQ (by positivity)
    _ = (2 : ℚ) ^ (elogFrac a b + 1) := by
        rw [← zpow_natCast (2 : ℚ) 24, ← zpow_add₀ (by norm_num : (2 : ℚ) ≠ 0)]
        congr 1
        push_cast
        ring

theorem two_zpow_le_iff {m n : ℤ} : (2 : ℚ) ^ m ≤ (2 : ℚ) ^ n ↔ m ≤ n := by
  constructor
  · intro h
    by_contra hlt
    push_neg at hlt
    have := zpow_lt_zpow_right₀ (by norm_num : (1 : ℚ) < 2) hlt
    linarith
  · intro h
    exact zpow_le_zpow_right₀ (by norm_num : (1 : ℚ) ≤ 2) h

theorem f32ofFrac_val_mono (a b c d : ℕ) (ha : 0 < a) (hb : 0 < b) (hc : 0 < c)
    (hd : 0 < d) (h : (a : ℚ) / b ≤ (c : ℚ) / d) :
    (f32ofFrac a b).val ≤ (f32ofFrac c d).val := by
  have he : elogFrac a b ≤ elogFrac c d := by
    obtain ⟨hlo, _⟩ := elogFrac_spec a b ha hb
    obtain ⟨_, hhi⟩ := elogFrac_spec c d hc hd
    have : (2 : ℚ) ^ elogFrac a b < 2 ^ (elogFrac c d + 1) :=
      lt_of_le_of_lt (le_trans hlo h) hhi
    by_contra hlt
    push_neg at hlt
    have h2 : (2 : ℚ) ^ (elogFrac c d + 1) ≤ 2 ^ elogFrac a b := two_zpow_le_iff.mpr (by omega)
    linarith
  rcases eq_or_lt_of_le he with heq | hlt
  · obtain ⟨A, B, hB, heqx, hfracx⟩ := f32ofFrac_cases a b ha hb
    obtain ⟨C, D, hD, heqy, hfracy⟩ := f32ofFrac_cases c d hc hd
    rw [heqx, heqy]
    show (rneFrac A B : ℚ) * 2 ^ (elogFrac a b - 23) ≤
      (rneFrac C D : ℚ) * 2 ^ (elogFrac c d - 23)
    rw [← heq]
    have hBQ : (0 : ℚ) < B := by exact_mod_cast hB
    have hDQ : (0 : ℚ) < D := by exact_mod_cast hD
    have hfr : (A : ℚ) / B ≤ (C : ℚ) / D := by
      rw [hfracx, hfracy, ← heq]
      exact mul_le_mul_of_nonneg_right h (by positivity)
    have hcross : A * D ≤ C * B := by
      have := (div_le_div_iff hBQ hDQ).mp hfr
      exact_mod_cast this
    have := rneFrac_mono A B C D hB hD hcross
    have hQ : (rneFrac A B : ℚ) ≤ (rneFrac C D : ℚ) := by exact_mod_cast this
    exact mul_le_mul_of_nonneg_right hQ (by positivity)
  · calc (f32ofFrac a b).val ≤ (2 : ℚ) ^ (elogFrac a b + 1) := f32ofFrac_val_ub a b ha hb
      _ ≤ (2 : ℚ) ^ elogFrac c d := two_zpow_le_iff.mpr (by omega)
      _ ≤ (f32ofFrac c d).val := f32ofFrac_val_lb c d hc hd

/-- `f32mul` is `f32ofFrac` applied to a positive fraction denoting the exact
product of the two operand values. -/
theorem f32mul_frac (x y : F32) :
    ∃ P Q : ℕ, 0 < Q ∧ f32mul x y = f32ofFrac P Q ∧
      (P : ℚ) / Q = x.val * y.val ∧ (0 < x.m → 0 < y.m → 0 < P) := by
  unfold f32mul
  by_cases hc : (0 : ℤ) ≤ x.e + y.e - 46
  · rw [if_pos hc]
    refine ⟨x.m * y.m * 2 ^ (x.e + y.e - 46).toNat, 1, one_pos, rfl, ?_, ?_⟩
    · rw [Nat.cast_one, div_one, Nat.cast_mul, Nat.cast_mul, cast_pow_toNat _ hc]
      unfold F32.val
      have hz : (x.e + y.e - 46) = (x.e - 23) + (y.e - 23) := by ring
      rw [hz, zpow_add₀ (by norm_num : (2 : ℚ) ≠ 0)]
      ring
    · intro h1 h2
      exact Nat.mul_pos (Nat.mul_pos h1 h2) (pow_pos (by norm_num) _)
  · rw [if_neg hc]
    refine ⟨x.m * y.m, 2 ^ (46 - x.e - y.e).toNat, pow_pos (by norm_num) _, rfl, ?_, ?_⟩
    · have hpos : (0 : ℤ) ≤ 46 - x.e - y.e := by omega
      rw [Nat.cast_mul, cast_pow_toNat _ hpos, div_eq_mul_inv, ← zpow_neg]
      unfold F32.val
      have hz : -(46 - x.e - y.e) = (x.e - 23) + (y.e - 23) := by ring
      rw [hz, zpow_add₀ (by norm_num : (2 : ℚ) ≠ 0)]
      ring
    · intro h1 h2
      exact Nat.mul_pos h1 h2

/-- `ceilVal` computes the ceiling of the denoted value. -/
theorem ceilVal_eq (x : F32) : ((ceilVal x : ℕ) : ℤ) = ⌈x.val⌉ := by
  unfold ceilVal F32.val
  by_cases hc : (0 : ℤ) ≤ x.e - 23
  · rw [if_pos hc]
    have hv : (x.m : ℚ) * 2 ^ (x.e - 23) = ((x.m * 2 ^ (x.e - 23).toNat : ℕ) : ℚ) := by
      rw [Nat.cast_mul, cast_pow_toNat _ hc]
    rw [hv, Int.ceil_natCast]
  · rw [if_neg hc]
    have hpos : (0 : ℤ) ≤ 23 - x.e := by omega
    have hv : (x.m : ℚ) * 2 ^ (x.e - 23) = (x.m : ℚ) / ((2 ^ (23 - x.e).toNat : ℕ) : ℚ) := by
      rw [cast_pow_toNat _ hpos]
      have hz : x.e - 23 = -(23 - x.e) := by ring
      rw [hz, zpow_neg, div_eq_mul_inv]
    rw [hv, intCeil_natDiv _ _ (pow_pos (by norm_num) _)]

/-- `floorVal` computes the floor of the denoted value. -/
theorem floorVal_eq (x : F32) : ((floorVal x : ℕ) : ℤ) = ⌊x.val⌋ := by
  unfold floorVal F32.val
  by_cases hc : (0 : ℤ) ≤ x.e - 23
  · rw [if_pos hc]
    have hv : (x.m : ℚ) * 2 ^ (x.e - 23) = ((x.m * 2 ^ (x.e - 23).toNat : ℕ) : ℚ) := by
      rw [Nat.cast_mul, cast_pow_toNat _ hc]
    rw [hv, Int.floor_natCast]
  · rw [if_neg hc]
    have hpos : (0 : ℤ) ≤ 23 - x.e := by omega
    have hv : (x.m : ℚ) * 2 ^ (x.e - 23) = (x.m : ℚ) / ((2 ^ (23 - x.e).toNat : ℕ) : ℚ) := by
      rw [cast_pow_toNat _ hpos]
      have hz : x.e - 23 = -(23 - x.e) := by ring
      rw [hz, zpow_neg, div_eq_mul_inv]
    rw [hv, intFloor_natDiv _ _ (pow_pos (by norm_num) _)]


theorem f32ofFrac_m_pos (a b : ℕ) (ha : 0 < a) (hb : 0 < b) :
    0 < (f32ofFrac a b).m := by
  by_contra h0
  push_neg at h0
  have hm : (f32ofFrac a b).m = 0 := by omega
  have hval : (f32ofFrac a b).val = 0 := by
    unfold F32.val
    rw [hm]
    simp
  have hlb := f32ofFrac_val_lb a b ha hb
  have hpow : (0 : ℚ) < 2 ^ elogFrac a b := by positivity
  linarith

theorem c67_val_ge_half : (1 : ℚ) / 2 ≤ c67.val := by
  have hym : c67 = ⟨11240735, -1⟩ := by decide
  have hv : c67.val = (11240735 : ℚ) * ((2 : ℚ) ^ (24 : ℕ))⁻¹ := by
    rw [hym]
    unfold F32.val
    dsimp only
    have h1 : ((-1 : ℤ) - 23) = -((24 : ℕ) : ℤ) := by norm_num
    rw [h1, zpow_neg, zpow_natCast]
    norm_num
  rw [hv]
  norm_num

theorem c67_val_nonneg : (0 : ℚ) ≤ c67.val := F32.val_nonneg c67

/-- For any total weight of at least 2, the value of `T as f32 * 0.67f32` is
at least 1. -/
theorem confVal_ge_one (T : ℕ) (hT : 2 ≤ T) :
    (1 : ℚ) ≤ (f32mul (asF32 T) c67).val := by
  have hTpos : 0 < T := by omega
  have hx : (2 : ℚ) ≤ (asF32 T).val := by
    unfold asF32
    have hspec := elogFrac_spec T 1 hTpos one_pos
    have hT1 : ((T : ℚ)) / (1 : ℚ) = (T : ℚ) := div_one _
    have h2T : (2 : ℚ) ≤ (T : ℚ) := by exact_mod_cast hT
    have he1 : 1 ≤ elogFrac T 1 := by
      have hhi := hspec.2
      rw [Nat.cast_one, hT1] at hhi
      by_contra hlt
      push_neg at hlt
      have hle : (2 : ℚ) ^ (elogFrac T 1 + 1) ≤ 2 ^ (1 : ℤ) := two_zpow_le_iff.mpr (by omega)
      rw [zpow_one] at hle
      linarith
    calc (2 : ℚ) = 2 ^ (1 : ℤ) := (zpow_one 2).symm
      _ ≤ 2 ^ elogFrac T 1 := two_zpow_le_iff.mpr he1
      _ ≤ (f32ofFrac T 1).val := f32ofFrac_val_lb T 1 hTpos one_pos
  have hy := c67_val_ge_half
  obtain ⟨P, Q, hQ, heq, hfrac, hP⟩ := f32mul_frac (asF32 T) c67
  have hxm : 0 < (asF32 T).m := f32ofFrac_m_pos T 1 hTpos one_pos
  have hcm : 0 < c67.m := by
    have hym : c67 = ⟨11240735, -1⟩ := by decide
    rw [hym]
    decide
  have hPpos := hP hxm hcm
  have hxnn : (0 : ℚ) ≤ (asF32 T).val := F32.val_nonneg _
  have hfge : (1 : ℚ) ≤ (P : ℚ) / Q := by
    rw [hfrac]
    have hmul : (2 : ℚ) * (1 / 2) ≤ (asF32 T).val * c67.val :=
      mul_le_mul hx hy (by norm_num) hxnn
    linarith
  rw [heq]
  have hspec2 := elogFrac_spec P Q hPpos hQ
  have he0 : 0 ≤ elogFrac P Q := by
    have hhi := hspec2.2
    by_contra hlt
    push_neg at hlt
    have hle : (2 : ℚ) ^ (elogFrac P Q + 1) ≤ 2 ^ (0 : ℤ) := two_zpow_le_iff.mpr (by omega)
    rw [zpow_zero] at hle
    linarith
  calc (1 : ℚ) = 2 ^ (0 : ℤ) := (zpow_zero 2).symm
    _ ≤ 2 ^ elogFrac P Q := two_zpow_le_iff.mpr he0
    _ ≤ (f32ofFrac P Q).val := f32ofFrac_val_lb P Q hPpos hQ

/-- The two-provider threshold is monotone in the total weight. -/
theorem confCeil_mono (T T' : ℕ) (h : T ≤ T') :
    ceilVal (f32mul (asF32 T) c67) ≤ ceilVal (f32mul (asF32 T') c67) := by
  rcases Nat.eq_zero_or_pos T with h0 | hTpos
  · subst h0
    have hz : ceilVal (f32mul (asF32 0) c67) = 0 := by decide
    rw [hz]
    exact Nat.zero_le _
  · have hT'pos : 0 < T' := by omega
    have hvx : (asF32 T).val ≤ (asF32 T').val := by
      unfold asF32
      apply f32ofFrac_val_mono T 1 T' 1 hTpos one_pos hT'pos one_pos
      rw [Nat.cast_one, div_one, div_one]
      exact_mod_cast h
    obtain ⟨P, Q, hQ, heq, hfrac, hP⟩ := f32mul_frac (asF32 T) c67
    obtain ⟨P', Q', hQ', heq', hfrac', hP'⟩ := f32mul_frac (asF32 T') c67
    have hcm : 0 < c67.m := by
      have hym : c67 = ⟨11240735, -1⟩ := by decide
      rw [hym]
      decide
    have hPpos := hP (f32ofFrac_m_pos T 1 hTpos one_pos) hcm
    have hP'pos := hP' (f32ofFrac_m_pos T' 1 hT'pos one_pos) hcm
    have hfr : (P : ℚ) / Q ≤ (P' : ℚ) / Q' := by
      rw [hfrac, hfrac']
      exact mul_le_mul_of_nonneg_right hvx c67_val_nonneg
    rw [heq, heq']
    have hvv := f32ofFrac_val_mono P Q P' Q' hPpos hQ hP'pos hQ' hfr
    have hc1 := ceilVal_eq (f32ofFrac P Q)
    have hc2 := ceilVal_eq (f32ofFrac P' Q')
    have hcc : ⌈(f32ofFrac P Q).val⌉ ≤ ⌈(f32ofFrac P' Q').val⌉ := Int.ceil_le_ceil hvv
    omega

/-- The many-provider threshold is monotone in the total weight. -/
theorem confFloor_mono (T T' : ℕ) (h : T ≤ T') :
    floorVal (f32mul (asF32 T) c67) ≤ floorVal (f32mul (asF32 T') c67) := by
  rcases Nat.eq_zero_or_pos T with h0 | hTpos
  · subst h0
    have hz : floorVal (f32mul (asF32 0) c67) = 0 := by decide
    rw [hz]
    exact Nat.zero_le _
  · have hT'pos : 0 < T' := by omega
    have hvx : (asF32 T).val ≤ (asF32 T').val := by
      unfold asF32
      apply f32ofFrac_val_mono T 1 T' 1 hTpos one_pos hT'pos one_pos
      rw [Nat.cast_one, div_one, div_one]
      exact_mod_cast h
    obtain ⟨P, Q, hQ, heq, hfrac, hP⟩ := f32mul_frac (asF32 T) c67
    obtain ⟨P', Q', hQ', heq', hfrac', hP'⟩ := f32mul_frac (asF32 T') c67
    have hcm : 0 < c67.m := by
      have hym : c67 = ⟨11240735, -1⟩ := by decide
      rw [hym]
      decide
    have hPpos := hP (f32ofFrac_m_pos T 1 hTpos one_pos) hcm
    have hP'pos := hP' (f32ofFrac_m_pos T' 1 hT'pos one_pos) hcm
    have hfr : (P : ℚ) / Q ≤ (P' : ℚ) / Q' := by
      rw [hfrac, hfrac']
      exact mul_le_mul_of_nonneg_right hvx c67_val_nonneg
    rw [heq, heq']
    have hvv := f32ofFrac_val_mono P Q P' Q' hPpos hQ hP'pos hQ' hfr
    have hc1 := floorVal_eq (f32ofFrac P Q)
    have hc2 := floorVal_eq (f32ofFrac P' Q')
    have hcc : ⌊(f32ofFrac P Q).val⌋ ≤ ⌊(f32ofFrac P' Q').val⌋ := Int.floor_le_floor hvv
    omega

/-! ## Claim C6 -/

/-- C6: for every valid authority and non-empty provider list the computed
confirmation threshold exists and is strictly positive, and for a fixed number
of enabled providers it is monotonically non-decreasing in the sum of the
providers' trust weights. -/
theorem c6_threshold_pos_and_monotone :
    (∀ (tfa : TrustFactorAuthority) (ps : List HttpProvider), tfa.Valid → ps ≠ [] →
      ∃ n, calc_confirmation_number tfa ps = some n ∧ 0 < n) ∧
    (∀ (tfa tfa' : TrustFactorAuthority) (ps ps' : List HttpProvider) (n n' : ℕ),
      ps.length = ps'.length →
      totalWeight tfa ps ≤ totalWeight tfa' ps' →
      calc_confirmation_number tfa ps = some n →
      calc_confirmation_number tfa' ps' = some n' → n ≤ n') := by
  constructor
  · intro tfa ps hv hne
    have h1 : 0 < ps.length := List.length_pos.mpr hne
    have hTlen := length_le_totalWeight tfa hv ps
    rcases hlen : ps.length with _ | (_ | (_ | k))
    · omega
    · refine ⟨totalWeight tfa ps, ?_, by omega⟩
      simp [calc_confirmation_number, hlen]
    · refine ⟨ceilVal (f32mul (asF32 (totalWeight tfa ps)) c67), ?_, ?_⟩
      · simp [calc_confirmation_number, hlen]
      · have hT2 : 2 ≤ totalWeight tfa ps := by omega
        have hval := confVal_ge_one (totalWeight tfa ps) hT2
        have hc := ceilVal_eq (f32mul (asF32 (totalWeight tfa ps)) c67)
        have hcl : (1 : ℤ) ≤ ⌈(f32mul (asF32 (totalWeight tfa ps)) c67).val⌉ := by
          have := Int.le_ceil (f32mul (asF32 (totalWeight tfa ps)) c67).val
          have h1' : (1 : ℚ) ≤ (⌈(f32mul (asF32 (totalWeight tfa ps)) c67).val⌉ : ℚ) :=
            le_trans hval this
          exact_mod_cast h1'
        omega
    · refine ⟨floorVal (f32mul (asF32 (totalWeight tfa ps)) c67), ?_, ?_⟩
      · simp [calc_confirmation_number, hlen]
      · have hT2 : 2 ≤ totalWeight tfa ps := by omega
        have hval := confVal_ge_one (totalWeight tfa ps) hT2
        have hc := floorVal_eq (f32mul (asF32 (totalWeight tfa ps)) c67)
        have hcl : (1 : ℤ) ≤ ⌊(f32mul (asF32 (totalWeight tfa ps)) c67).val⌋ :=
          Int.le_floor.mpr (by exact_mod_cast hval)
        omega
  · intro tfa tfa' ps ps' n n' hlen hsum h1 h2
    rcases hL : ps.length with _ | (_ | (_ | k))
    · rw [hL] at hlen
      simp [calc_confirmation_number, hL] at h1
    · rw [hL] at hlen
      simp only [calc_confirmation_number, hL] at h1
      simp only [calc_confirmation_number, ← hlen] at h2
      injection h1 with h1'
      injection h2 with h2'
      omega
    · rw [hL] at hlen
      simp only [calc_confirmation_number, hL] at h1
      simp only [calc_confirmation_number, ← hlen] at h2
      injection h1 with h1'
      injection h2 with h2'
      rw [← h1', ← h2']
      exact confCeil_mono _ _ hsum
    · rw [hL] at hlen
      simp only [calc_confirmation_number, hL] at h1
      simp only [calc_confirmation_number, ← hlen] at h2
      injection h1 with h1'
      injection h2 with h2'
      rw [← h1', ← h2']
      exact confFloor_mono _ _ hsum

/-- Witness for C6 at concrete inputs: one default-weight provider has a
positive threshold, and raising the weight sum from 2 to 6 raises the
two-provider threshold from 2 to 5. -/
theorem c6_witness :
    (∃ n, calc_confirmation_number ⟨fun _ => none⟩ [HttpProvider.HttpBin] = some n ∧ 0 < n) ∧
    (2 : ℕ) ≤ 5 := by
  constructor
  · exact c6_threshold_pos_and_monotone.1 ⟨fun _ => none⟩ [HttpProvider.HttpBin]
      (fun p w h => by injection h) (by decide)
  · exact c6_threshold_pos_and_monotone.2 ⟨fun _ => none⟩ tfaHigh
      [HttpProvider.HttpBin, HttpProvider.HttpBin] [HttpProvider.HttpBin, HttpProvider.HttpBin]
      2 5 rfl (by decide) (by decide) (by decide)


/-! ## `crates/ndhcp/src/address.rs` -/

/-- `enum Kind` — the class assigned to an IP address. -/
inductive Kind
  | Loopback
  | Private
  | Public
  | Multicast
  | Reserved
deriving DecidableEq, Repr

/-- `Kind::is_public` (generated by `EnumIs`). -/
def Kind.is_public (k : Kind) : Bool := k == Kind.Public

/-- First-match linear scan over a table of CIDR ranges, `Public` when no
range matches.  An address of width `w` bits is in range `(net, p)` iff its
top `p` bits agree with `net`, which is the semantics of
`Ipv4Network::contains` / `Ipv6Network::contains` (both sides masked). -/
def scanRanges (w : ℕ) : List (ℕ × ℕ × Kind) → ℕ → Kind
  | [], _ => Kind.Public
  | (net, p, k) :: rest, a =>
      if a / 2 ^ (w - p) = net / 2 ^ (w - p) then k else scanRanges w rest a

/-- The `RESERVED_RAW` table of `kind_ipv4`, with each CIDR literal parsed to
its numeric network address. -/
def RESERVED_V4 : List (ℕ × ℕ × Kind) := [
  (0, 8, Kind.Loopback),  -- 0.0.0.0/8
  (167772160, 8, Kind.Private),  -- 10.0.0.0/8
  (1681915904, 10, Kind.Reserved),  -- 100.64.0.0/10
  (2130706432, 8, Kind.Loopback),  -- 127.0.0.0/8
  (2851995648, 16, Kind.Private),  -- 169.254.0.0/16
  (2886729728, 12, Kind.Private),  -- 172.16.0.0/12
  (3221225472, 24, Kind.Reserved),  -- 192.0.0.0/24
  (3221225984, 24, Kind.Reserved),  -- 192.0.2.0/24
  (3227017984, 24, Kind.Reserved),  -- 192.88.99.0/24
  (3232235520, 16, Kind.Private),  -- 192.168.0.0/16
  (3323068416, 15, Kind.Reserved),  -- 198.18.0.0/15
  (3325256704, 24, Kind.Reserved),  -- 198.51.100.0/24
  (3405803776, 24, Kind.Reserved),  -- 203.0.113.0/24
  (3758096384, 4, Kind.Multicast),  -- 224.0.0.0/4
  (3925606400, 24, Kind.Reserved),  -- 233.252.0.0/24
  (4026531840, 4, Kind.Reserved),  -- 240.0.0.0/4
  (4294967295, 32, Kind.Multicast)]  -- 255.255.255.255/32

/-- The `RESERVED_RAW` table of `kind_ipv6`, with each CIDR literal parsed to
its numeric network address.  Note `64:ff9b:1::/4` really has prefix 4 in the
source, so after masking it covers the whole `::/4` block. -/
def RESERVED_V6 : List (ℕ × ℕ × Kind) := [
  (0, 128, Kind.Loopback),  -- ::/128
  (1, 128, Kind.Loopback),  -- ::1/128
  (281470681743360, 96, Kind.Reserved),  -- ::ffff:0:0/96
  (18446462598732840960, 96, Kind.Reserved),  -- ::ffff:0:0:0/96
  (524413980667603649783483181312245760, 96, Kind.Reserved),  -- 64:ff9b::/96
  (524413980668812575603097810486951936, 4, Kind.Reserved),  -- 64:ff9b:1::/4
  (1329227995784915872903807060280344576, 64, Kind.Reserved),  -- 100::/64
  (42540488161975842760550356425300246528, 32, Kind.Reserved),  -- 2001::/32
  (42540490697277043217009159418706657280, 28, Kind.Reserved),  -- 2001:20::/28
  (42540766411282592856903984951653826560, 32, Kind.Reserved),  -- 2001:db8::/32
  (42545680458834377588178886921629466624, 16, Kind.Reserved),  -- 2002::/16
  (85065399433376081038215121361612832768, 20, Kind.Reserved),  -- 3fff::/20
  (126276659599567007925861670726632734720, 16, Kind.Reserved),  -- 5f00::/16
  (334965454937798799971759379190646833152, 7, Kind.Private),  -- fc00::/7
  (338288524927261089654018896841347694592, 10, Kind.Private),  -- fe80::/10
  (338953138925153547590470800371487866880, 8, Kind.Multicast)]  -- ff00::/8

/-- `kind_ipv4`: the address as a 32-bit natural number. -/
def kind_ipv4 (a : ℕ) : Kind := scanRanges 32 RESERVED_V4 a

/-- `kind_ipv6`: the address as a 128-bit natural number. -/
def kind_ipv6 (a : ℕ) : Kind := scanRanges 128 RESERVED_V6 a

/-- `std::net::IpAddr`: a v4 or v6 address as a bounded natural number. -/
inductive IpAddr
  | v4 (a : ℕ)
  | v6 (a : ℕ)
deriving DecidableEq, Repr

/-- `address::kind`. -/
def kind : IpAddr → Kind
  | .v4 a => kind_ipv4 a
  | .v6 a => kind_ipv6 a

/-- `address::is_public`. -/
def is_public (addr : IpAddr) : Bool := kind addr == Kind.Public

/-- Loopback IPv4 addresses per `Ipv4Addr::is_loopback` (127.0.0.0/8);
modelled from the Rust standard library, to state the spec's
"loopback literals". -/
def isLoopbackV4 (a : ℕ) : Prop := a / 2 ^ 24 = 127

/-- Multicast IPv4 addresses per `Ipv4Addr::is_multicast` (224.0.0.0/4). -/
def isMulticastV4 (a : ℕ) : Prop := a / 2 ^ 28 = 14

/-- Loopback IPv6 address per `Ipv6Addr::is_loopback` (`::1`). -/
def isLoopbackV6 (a : ℕ) : Prop := a = 1

/-- Multicast IPv6 addresses per `Ipv6Addr::is_multicast` (`ff00::/8`). -/
def isMulticastV6 (a : ℕ) : Prop := a / 2 ^ 120 = 255

/-- The scan equals "class of the first matching range, else Public". -/
theorem scanRanges_eq_find (w : ℕ) (l : List (ℕ × ℕ × Kind)) (a : ℕ) :
    scanRanges w l a =
      ((l.find? (fun t => a / 2 ^ (w - t.2.1) == t.1 / 2 ^ (w - t.2.1))).map
        (fun t => t.2.2)).getD Kind.Public := by
  induction l with
  | nil => rfl
  | cons t rest ih =>
      obtain ⟨net, p, k⟩ := t
      rw [List.find?]
      by_cases hc : a / 2 ^ (w - p) = net / 2 ^ (w - p)
      · simp [scanRanges, hc]
      · simp only [scanRanges, hc, if_false]
        rw [ih]
        have hb : (a / 2 ^ (w - p) == net / 2 ^ (w - p)) = false := by
          simp [hc]
        simp [hb]


theorem scanRanges_cons_neg {w net p : ℕ} {k : Kind} {rest : List (ℕ × ℕ × Kind)} {a : ℕ}
    (hc : ¬ a / 2 ^ (w - p) = net / 2 ^ (w - p)) :
    scanRanges w ((net, p, k) :: rest) a = scanRanges w rest a := by
  simp [scanRanges, hc]

theorem scanRanges_cons_pos {w net p : ℕ} {k : Kind} {rest : List (ℕ × ℕ × Kind)} {a : ℕ}
    (hc : a / 2 ^ (w - p) = net / 2 ^ (w - p)) :
    scanRanges w ((net, p, k) :: rest) a = k := by
  simp [scanRanges, hc]

theorem kind_ipv4_loopback (a : ℕ) (h : isLoopbackV4 a) : kind_ipv4 a = Kind.Loopback := by
  unfold isLoopbackV4 at h
  norm_num at h
  unfold kind_ipv4 RESERVED_V4
  rw [scanRanges_cons_neg, scanRanges_cons_neg, scanRanges_cons_neg, scanRanges_cons_pos]
  all_goals norm_num
  all_goals omega

theorem kind_ipv4_multicast (a : ℕ) (h : isMulticastV4 a) : kind_ipv4 a = Kind.Multicast := by
  unfold isMulticastV4 at h
  norm_num at h
  unfold kind_ipv4 RESERVED_V4
  rw [scanRanges_cons_neg, scanRanges_cons_neg, scanRanges_cons_neg, scanRanges_cons_neg,
    scanRanges_cons_neg, scanRanges_cons_neg, scanRanges_cons_neg, scanRanges_cons_neg,
    scanRanges_cons_neg, scanRanges_cons_neg, scanRanges_cons_neg, scanRanges_cons_neg,
    scanRanges_cons_neg, scanRanges_cons_pos]
  all_goals norm_num
  all_goals omega

theorem kind_ipv6_loopback (a : ℕ) (h : isLoopbackV6 a) : kind_ipv6 a = Kind.Loopback := by
  unfold isLoopbackV6 at h
  subst h
  decide

theorem kind_ipv6_multicast (a : ℕ) (h : isMulticastV6 a) : kind_ipv6 a = Kind.Multicast := by
  unfold isMulticastV6 at h
  norm_num at h
  unfold kind_ipv6 RESERVED_V6
  rw [scanRanges_cons_neg, scanRanges_cons_neg, scanRanges_cons_neg, scanRanges_cons_neg,
    scanRanges_cons_neg, scanRanges_cons_neg, scanRanges_cons_neg, scanRanges_cons_neg,
    scanRanges_cons_neg, scanRanges_cons_neg, scanRanges_cons_neg, scanRanges_cons_neg,
    scanRanges_cons_neg, scanRanges_cons_neg, scanRanges_cons_neg, scanRanges_cons_pos]
  all_goals norm_num
  all_goals omega


/-! ## Claim C7 -/

/-- C7: the address classifier is a total, deterministic function assigning
every IPv4/IPv6 address exactly one class; it is the linear scan returning the
first matching reserved range's class, `Public` when no range matches; and no
loopback and no multicast address (in the standard-library sense) is ever
classified `Public`. -/
theorem c7_classifier :
    (∀ addr : IpAddr, ∃! k : Kind, kind addr = k) ∧
    (∀ a : ℕ, kind_ipv4 a =
      ((RESERVED_V4.find? (fun t => a / 2 ^ (32 - t.2.1) == t.1 / 2 ^ (32 - t.2.1))).map
        (fun t => t.2.2)).getD Kind.Public) ∧
    (∀ a : ℕ, kind_ipv6 a =
      ((RESERVED_V6.find? (fun t => a / 2 ^ (128 - t.2.1) == t.1 / 2 ^ (128 - t.2.1))).map
        (fun t => t.2.2)).getD Kind.Public) ∧
    (∀ a : ℕ, isLoopbackV4 a → kind_ipv4 a ≠ Kind.Public) ∧
    (∀ a : ℕ, isMulticastV4 a → kind_ipv4 a ≠ Kind.Public) ∧
    (∀ a : ℕ, isLoopbackV6 a → kind_ipv6 a ≠ Kind.Public) ∧
    (∀ a : ℕ, isMulticastV6 a → kind_ipv6 a ≠ Kind.Public) := by
  refine ⟨?_, ?_, ?_, ?_, ?_, ?_, ?_⟩
  · intro addr
    exact ⟨kind addr, rfl, fun y hy => hy.symm⟩
  · intro a
    exact scanRanges_eq_find 32 RESERVED_V4 a
  · intro a
    exact scanRanges_eq_find 128 RESERVED_V6 a
  · intro a h
    rw [kind_ipv4_loopback a h]
    simp
  · intro a h
    rw [kind_ipv4_multicast a h]
    simp
  · intro a h
    rw [kind_ipv6_loopback a h]
    simp
  · intro a h
    rw [kind_ipv6_multicast a h]
    simp

/-- Witness for C7 at concrete addresses: `127.0.0.1` and `::1` are not
classified `Public`. -/
theorem c7_witness :
    kind_ipv4 2130706433 ≠ Kind.Public ∧ kind_ipv6 1 ≠ Kind.Public :=
  ⟨c7_classifier.2.2.2.1 2130706433 (by unfold isLoopbackV4; norm_num),
   c7_classifier.2.2.2.2.2.1 1 rfl⟩


/-! ## `crates/ndhcp/src/manager.rs`

The provider network calls go through `verifier::check_public_ip`, whose
definition is not part of the compiled sources (`verifier.rs` is an
uncompiled draft); each provider's outcome is therefore abstracted as a
function `resultOf : HttpProvider → Except Reason Unit` supplied to the run.
`JoinSet::join_all` delivers results in completion order; the per-item tally
only folds a commutative update, so it is modelled as a left fold in
provider-list order. -/

/-- `verifier::Reason` (declared by the callers in `manager.rs`). -/
inductive Reason
  | InappropriateAddress (k : Kind)
  | RemoteUnmatched (real_remote_ip : IpAddr)
  | RemoteError (err : String)
deriving DecidableEq, Repr

/-- `manager::Item`. -/
structure Item where
  iface : String
  addr : IpAddr
  confirmations : ℤ
deriving DecidableEq, Repr

/-- `manager::Status`. -/
inductive Status
  | Confirmed
  | Candidate
  | Declined
deriving DecidableEq, Repr

/-- `Item::new`. -/
def Item.new (iface : String) (addr : IpAddr) : Item := ⟨iface, addr, 0⟩

/-- `Item::apply_check_result`: decrement the confirmation counter on error
(the provider argument is only used for logging). -/
def apply_check_result (item : Item) (result : Except Reason Unit)
    (provider : Option HttpProvider) : Item :=
  match result with
  | .ok _ => item
  | .error _ => { item with confirmations := item.confirmations - 1 }

/-- `Item::check_providers`. -/
def check_providers (item : Item) (providers : List HttpProvider)
    (resultOf : HttpProvider → Except Reason Unit) : Item :=
  let item := { item with confirmations := 0 }
  let local_addr_kind := kind item.addr
  if !local_addr_kind.is_public then
    apply_check_result item (.error (.InappropriateAddress local_addr_kind)) none
  else
    providers.foldl (fun it p =>
      apply_check_result { it with confirmations := it.confirmations + 1 } (resultOf p) (some p))
      item

/-- `Item::status_for`; the `assert!(threshold >= 1)` panic is modelled as
`none`. -/
def status_for (item : Item) (threshold : ℤ) : Option Status :=
  if threshold < 1 then none
  else
    let threshold_candidate := threshold / 2
    some (if item.confirmations ≥ threshold then Status.Confirmed
      else if item.confirmations ≥ threshold_candidate then Status.Candidate
      else Status.Declined)

/-- `manager::Manager`. -/
structure Manager where
  items : List Item
  providers : List HttpProvider

/-- `Manager::new_with_items`; the two `bail!` cases are modelled as `none`. -/
def Manager.new_with_items (items : List Item) (providers : List HttpProvider) :
    Option Manager :=
  if items = [] then none
  else if providers = [] then none
  else some ⟨items, providers⟩

/-- The run pipeline at a given effective threshold `t` (check every item
against every provider, then resolve its status against `t`). -/
def Manager.runWith (m : Manager) (resultOf : HttpProvider → Except Reason Unit)
    (t : ℤ) : List (Item × Option Status) :=
  m.items.map (fun item =>
    let item' := check_providers item m.providers resultOf
    (item', status_for item' t))

/-- `Manager::run`: clamp the threshold, then run the pipeline. -/
def Manager.run (m : Manager) (resultOf : HttpProvider → Except Reason Unit)
    (threshold : ℤ) : List (Item × Option Status) :=
  let n : ℤ := m.providers.length
  let t := if threshold ≤ 0 ∨ threshold > n then n else threshold
  m.runWith resultOf t

/-- The tally inside `check_providers` counts one credit per successful
provider, independent of the start item. -/
theorem check_providers_fold (providers : List HttpProvider)
    (resultOf : HttpProvider → Except Reason Unit) :
    ∀ it : Item,
      (providers.foldl (fun it p =>
        apply_check_result { it with confirmations := it.confirmations + 1 } (resultOf p)
          (some p)) it).confirmations =
      it.confirmations +
        ((providers.filter (fun p => match resultOf p with
          | .ok _ => true
          | .error _ => false)).length : ℤ) := by
  induction providers with
  | nil => intro it; simp
  | cons p rest ih =>
      intro it
      rw [List.foldl_cons, List.filter_cons]
      cases hr : resultOf p with
      | ok u =>
          rw [show apply_check_result { it with confirmations := it.confirmations + 1 }
              (Except.ok u) (some p) = { it with confirmations := it.confirmations + 1 }
            from rfl]
          rw [ih]
          simp
          omega
      | error e =>
          rw [show apply_check_result { it with confirmations := it.confirmations + 1 }
              (Except.error e) (some p) =
              { it with confirmations := it.confirmations + 1 - 1 }
            from rfl]
          rw [ih]
          simp


/-! ## Claim C2 -/

/-- The per-candidate tally the spec describes, following the spec's words:
"For every successful candidate, add the observer's weight to a per-IP
accumulator bucket".  Used only to compare the specified tally against the
implemented one. -/
def specWeightedTally (tfa : TrustFactorAuthority) (providers : List HttpProvider)
    (resultOf : HttpProvider → Except Reason Unit) : ℤ :=
  (providers.map (fun p => match resultOf p with
    | .ok _ => (tfa.trust_factor p : ℤ)
    | .error _ => 0)).sum

/-- The authority used in the C2 counterexample: `HttpBin` overridden to the
medium trust factor `2` (a valid configuration). -/
def tfaMed : TrustFactorAuthority := ⟨fun _ => some 2⟩

/-- A candidate with the public local address `8.8.8.8`. -/
def itemPub : Item := Item.new "eth0" (IpAddr.v4 134744072)

/-- The provider outcome in which every provider confirms. -/
def allOk : HttpProvider → Except Reason Unit := fun _ => Except.ok ()

/-- C2 (counterexample): the claim says each successfully confirming provider
adds its trust weight (1..3) to the candidate's tally.  With `HttpBin` set to
weight 2 and a single successful confirmation of a public address, the code's
tally is 1, not 2: `check_providers` counts one credit per successful
provider and never consults the trust-factor authority. -/
theorem c2_counterexample :
    tfaMed.Valid ∧
    Kind.is_public (kind itemPub.addr) = true ∧
    (check_providers itemPub [HttpProvider.HttpBin] allOk).confirmations = 1 ∧
    specWeightedTally tfaMed [HttpProvider.HttpBin] allOk = 2 ∧
    ((1 : ℤ) ≠ 2) := by
  refine ⟨?_, by decide, by decide, by decide, by decide⟩
  intro p w h
  injection h with h'
  rw [← h']
  decide

/-- C2 (amended): during a confirmation run on a candidate with a public
local address, every provider that successfully confirms contributes exactly
one credit (trust weights are not consulted), every failing provider removes
one, so the tally is the number of successful providers; and the candidate is
reported `Confirmed` exactly when its tally is at least the (positive)
threshold used for the run. -/
theorem c2_confirmation_tally (item : Item) (providers : List HttpProvider)
    (resultOf : HttpProvider → Except Reason Unit) (threshold : ℤ)
    (hpub : Kind.is_public (kind item.addr) = true) (ht : 1 ≤ threshold) :
    (check_providers item providers resultOf).confirmations =
      ((providers.filter (fun p => match resultOf p with
        | .ok _ => true
        | .error _ => false)).length : ℤ) ∧
    (status_for (check_providers item providers resultOf) threshold = some Status.Confirmed ↔
      threshold ≤ (check_providers item providers resultOf).confirmations) := by
  have hcp : (check_providers item providers resultOf).confirmations =
      ((providers.filter (fun p => match resultOf p with
        | .ok _ => true
        | .error _ => false)).length : ℤ) := by
    unfold check_providers
    have haddr : ({ item with confirmations := 0 } : Item).addr = item.addr := rfl
    rw [haddr, if_neg (by rw [hpub]; decide)]
    rw [check_providers_fold]
    simp
  refine ⟨hcp, ?_⟩
  simp only [status_for]
  rw [if_neg (by omega)]
  constructor
  · intro h
    by_contra hc
    push_neg at hc
    rw [if_neg (by omega)] at h
    split_ifs at h <;> simp_all
  · intro h
    rw [if_pos h]

/-- Witness for C2 (amended): one provider confirming `8.8.8.8` at threshold 1. -/
theorem c2_confirmation_tally_witness :
    (check_providers itemPub [HttpProvider.HttpBin] allOk).confirmations =
      (([HttpProvider.HttpBin].filter (fun p => match allOk p with
        | .ok _ => true
        | .error _ => false)).length : ℤ) ∧
    (status_for (check_providers itemPub [HttpProvider.HttpBin] allOk) 1 = some Status.Confirmed ↔
      1 ≤ (check_providers itemPub [HttpProvider.HttpBin] allOk).confirmations) :=
  c2_confirmation_tally itemPub [HttpProvider.HttpBin] allOk 1 (by decide) (by decide)

/-! ## Claim C8 -/

/-- C8: for a candidate whose local address is not public, the confirmation
run short-circuits: the result is exactly the inappropriate-address failure
recorded through the same `apply_check_result` used for provider failures, it
does not depend on the provider outcomes (no network call is consumed), the
tally is `-1` (no positive confirmation), and the candidate is never reported
`Confirmed` for any positive threshold. -/
theorem c8_nonpublic_short_circuit (item : Item) (providers : List HttpProvider)
    (resultOf resultOf' : HttpProvider → Except Reason Unit) (threshold : ℤ)
    (hnp : Kind.is_public (kind item.addr) = false) (ht : 1 ≤ threshold) :
    check_providers item providers resultOf =
      apply_check_result { item with confirmations := 0 }
        (Except.error (Reason.InappropriateAddress (kind item.addr))) none ∧
    check_providers item providers resultOf = check_providers item providers resultOf' ∧
    (check_providers item providers resultOf).confirmations = -1 ∧
    status_for (check_providers item providers resultOf) threshold ≠ some Status.Confirmed := by
  have he : ∀ r : HttpProvider → Except Reason Unit,
      check_providers item providers r =
        apply_check_result { item with confirmations := 0 }
          (Except.error (Reason.InappropriateAddress (kind item.addr))) none := by
    intro r
    unfold check_providers
    have haddr : ({ item with confirmations := 0 } : Item).addr = item.addr := rfl
    rw [haddr, if_pos (by rw [hnp]; decide)]
  have hc : (check_providers item providers resultOf).confirmations = -1 := by
    rw [he resultOf]
    rfl
  refine ⟨he resultOf, (he resultOf).trans (he resultOf').symm, hc, ?_⟩
  simp only [status_for]
  rw [if_neg (by omega), hc]
  rw [if_neg (by omega)]
  split_ifs <;> simp

/-- Witness for C8: the private address `192.168.1.1` with one provider whose
call would succeed. -/
theorem c8_nonpublic_short_circuit_witness :
    (check_providers (Item.new "eth0" (IpAddr.v4 3232235777)) [HttpProvider.HttpBin] allOk).confirmations = -1 ∧
    status_for (check_providers (Item.new "eth0" (IpAddr.v4 3232235777))
      [HttpProvider.HttpBin] allOk) 1 ≠ some Status.Confirmed :=
  ⟨(c8_nonpublic_short_circuit (Item.new "eth0" (IpAddr.v4 3232235777))
      [HttpProvider.HttpBin] allOk allOk 1 (by decide) (by decide)).2.2.1,
   (c8_nonpublic_short_circuit (Item.new "eth0" (IpAddr.v4 3232235777))
      [HttpProvider.HttpBin] allOk allOk 1 (by decide) (by decide)).2.2.2⟩

/-! ## Claim C9 -/

/-- C9: `Manager::run` with a threshold that is zero, negative, or above the
provider count behaves exactly as if the threshold equaled the provider
count; every threshold in `1..=count` is used unchanged. -/
theorem c9_run_threshold_clamp (m : Manager)
    (resultOf : HttpProvider → Except Reason Unit) (threshold : ℤ) :
    ((threshold ≤ 0 ∨ (m.providers.length : ℤ) < threshold) →
      m.run resultOf threshold = m.run resultOf (m.providers.length : ℤ)) ∧
    (1 ≤ threshold → threshold ≤ (m.providers.length : ℤ) →
      m.run resultOf threshold = m.runWith resultOf threshold) := by
  constructor
  · intro h
    simp only [Manager.run]
    split_ifs <;> first | rfl | (exfalso; omega)
  · intro h1 h2
    simp only [Manager.run]
    split_ifs <;> first | rfl | (exfalso; omega)

/-- Witness for C9: with one provider, running at threshold 5 equals running
at the provider count. -/
theorem c9_run_threshold_clamp_witness :
    (Manager.mk [itemPub] [HttpProvider.HttpBin]).run allOk 5 =
      (Manager.mk [itemPub] [HttpProvider.HttpBin]).run allOk
        (((Manager.mk [itemPub] [HttpProvider.HttpBin]).providers.length : ℤ)) :=
  (c9_run_threshold_clamp (Manager.mk [itemPub] [HttpProvider.HttpBin]) allOk 5).1
    (Or.inr (by decide))


/-! ## `crates/kubem/src/manager.rs`

The cluster-API collaborator is modelled as a `World` holding the node's
live address list plus a counter of issued `patch_status` calls; a merge
patch replaces the address list (unless the handle is in dry-run mode, in
which case the call is made but nothing is persisted).  Remote failures are
outside the claims and the patch is modelled as succeeding. -/

/-- The `address` string of a `NodeAddress`: either the textual form of an IP
address or a string that does not parse as one. -/
inductive RawAddr
  | ip (a : IpAddr)
  | unparsable (s : String)
deriving DecidableEq, Repr

/-- `k8s_openapi::api::core::v1::NodeAddress`. -/
structure NodeAddress where
  address : RawAddr
  type_ : String
deriving DecidableEq, Repr

def TYPE_INTERNAL_IP : String := "InternalIP"
def TYPE_EXTERNAL_IP : String := "ExternalIP"

/-- `is_internal_ip`. -/
def is_internal_ip (na : NodeAddress) : Bool := na.type_ == TYPE_INTERNAL_IP

/-- `is_external_ip`. -/
def is_external_ip (na : NodeAddress) : Bool := na.type_ == TYPE_EXTERNAL_IP

/-- `is_internal_external_ip`. -/
def is_internal_external_ip (na : NodeAddress) : Bool :=
  is_internal_ip na || is_external_ip na

/-- `parse_ip`: `IpAddr::from_str` succeeds exactly on addresses carrying a
parsed IP. -/
def parse_ip (na : NodeAddress) : Option IpAddr :=
  if is_internal_external_ip na then
    match na.address with
    | .ip a => some a
    | .unparsable _ => none
  else none

/-- `new_node_address`. -/
def new_node_address (ip : IpAddr) (type_ : String) : NodeAddress := ⟨.ip ip, type_⟩

/-- Comparison used by `BTreeSet<IpAddr>` (v4 before v6, then numeric). -/
def ipLt (x y : IpAddr) : Bool :=
  match x, y with
  | .v4 a, .v4 b => a < b
  | .v4 _, .v6 _ => true
  | .v6 _, .v4 _ => false
  | .v6 a, .v6 b => a < b

/-- Ordered-set insertion of `BTreeSet::insert` (no duplicates). -/
def btInsert (x : IpAddr) : List IpAddr → List IpAddr
  | [] => [x]
  | y :: ys => if ipLt x y then x :: y :: ys else if x = y then y :: ys else y :: btInsert x ys

theorem mem_btInsert (a x : IpAddr) (l : List IpAddr) :
    a ∈ btInsert x l ↔ a = x ∨ a ∈ l := by
  induction l with
  | nil => simp [btInsert]
  | cons y ys ih =>
      simp only [btInsert]
      split_ifs with h1 h2
      · simp
      · subst h2
        simp only [List.mem_cons]
        constructor
        · intro h
          rcases h with h | h
          · exact Or.inr (Or.inl h)
          · exact Or.inr (Or.inr h)
        · intro h
          rcases h with h | h | h
          · exact Or.inl h
          · exact Or.inl h
          · exact Or.inr h
      · simp only [List.mem_cons, ih]
        tauto

/-- `kubem::Handle`: the cached view. -/
structure Handle where
  dry_run : Bool
  external_ips_were : List IpAddr
  external_ips_added : List IpAddr
  non_external_ips : List NodeAddress
deriving DecidableEq, Repr

/-- The cluster side: the node's live address list and the number of
`patch_status` calls issued so far. -/
structure World where
  node : List NodeAddress
  patches : ℕ
deriving DecidableEq, Repr

/-- `Handle::apply_patch`: one API call; a merge patch replaces the address
list unless dry-run is requested. -/
def apply_patch (h : Handle) (w : World) (new_addresses : List NodeAddress) : World :=
  { node := if h.dry_run then w.node else new_addresses, patches := w.patches + 1 }

/-- The splitting loop of `Handle::refresh`: external addresses that parse go
into the `were` set, everything else (including unparsable externals) is kept
verbatim in the non-external cache. -/
def refreshStep (acc : List IpAddr × List NodeAddress) (na : NodeAddress) :
    List IpAddr × List NodeAddress :=
  if is_external_ip na then
    match parse_ip na with
    | some ip => (btInsert ip acc.1, acc.2)
    | none => (acc.1, acc.2 ++ [na])
  else (acc.1, acc.2 ++ [na])

def refreshSplit (node : List NodeAddress) : List IpAddr × List NodeAddress :=
  node.foldl refreshStep ([], [])

/-- `Handle::refresh` (reads the live node; mutates only the cache). -/
def refresh (h : Handle) (w : World) : Handle :=
  let z := refreshSplit w.node
  let added := h.external_ips_added.filter (fun ip => decide (ip ∈ z.1))
  let were := z.1.filter (fun ip => decide (ip ∉ added))
  { h with external_ips_were := were, external_ips_added := added, non_external_ips := z.2 }

/-- `Handle::new`: start with empty caches, then refresh. -/
def Handle.new (dry_run : Bool) (w : World) : Handle :=
  refresh ⟨dry_run, [], [], []⟩ w

/-- `Handle::apply_addrs`. -/
def apply_addrs (h : Handle) (w : World) (addr : IpAddr) : Handle × World :=
  if addr ∈ h.external_ips_added ∨ addr ∈ h.external_ips_were then (h, w)
  else
    let new1 := (h.non_external_ips ++ [new_node_address addr TYPE_EXTERNAL_IP]) ++
      h.external_ips_were.map (fun ip => new_node_address ip TYPE_EXTERNAL_IP)
    let w' := apply_patch h w new1
    ({ h with external_ips_added := btInsert addr h.external_ips_added }, w')

/-- `Handle::remove_unapplied`: patch the node down to the non-externals plus
the addresses this handle itself applied; returns the discarded set. -/
def remove_unapplied (h : Handle) (w : World) : Handle × World × List IpAddr :=
  let new1 := h.non_external_ips ++
    h.external_ips_added.map (fun ip => new_node_address ip TYPE_EXTERNAL_IP)
  let w' := apply_patch h w new1
  (h, w', h.external_ips_were)


/-! ## Claim C5 -/

/-- C5: applying the same address twice in succession issues at most one
patch call in total, and when the address is already present (inherited) or
already applied, `apply_addrs` performs no network call and changes nothing. -/
theorem c5_apply_addrs_idempotent (h : Handle) (w : World) (addr : IpAddr) :
    (apply_addrs (apply_addrs h w addr).1 (apply_addrs h w addr).2 addr).2.patches ≤
      w.patches + 1 ∧
    (addr ∈ h.external_ips_added ∨ addr ∈ h.external_ips_were →
      apply_addrs h w addr = (h, w)) := by
  by_cases hmem : addr ∈ h.external_ips_added ∨ addr ∈ h.external_ips_were
  · have he : apply_addrs h w addr = (h, w) := by
      unfold apply_addrs
      rw [if_pos hmem]
    refine ⟨?_, fun _ => he⟩
    rw [he]
    show (apply_addrs h w addr).2.patches ≤ w.patches + 1
    rw [he]
    simp
  · have he1 : (apply_addrs h w addr).1 =
        { h with external_ips_added := btInsert addr h.external_ips_added } := by
      simp only [apply_addrs]
      rw [if_neg hmem]
    have he2 : (apply_addrs h w addr).2.patches = w.patches + 1 := by
      simp only [apply_addrs]
      rw [if_neg hmem]
      rfl
    refine ⟨?_, fun hcon => absurd hcon hmem⟩
    have hmem2 : addr ∈ (apply_addrs h w addr).1.external_ips_added ∨
        addr ∈ (apply_addrs h w addr).1.external_ips_were := by
      refine Or.inl ?_
      rw [he1]
      exact (mem_btInsert addr addr h.external_ips_added).mpr (Or.inl rfl)
    have he3 : apply_addrs (apply_addrs h w addr).1 (apply_addrs h w addr).2 addr =
        ((apply_addrs h w addr).1, (apply_addrs h w addr).2) := by
      generalize (apply_addrs h w addr) = p at hmem2
      unfold apply_addrs
      rw [if_pos hmem2]
    rw [he3, he2]

/-- Witness for C5: the second conjunct applied where the address is already
in the inherited set. -/
theorem c5_apply_addrs_idempotent_witness :
    apply_addrs (Handle.mk false [IpAddr.v4 7] [] []) (World.mk [] 0) (IpAddr.v4 7) =
      (Handle.mk false [IpAddr.v4 7] [] [], World.mk [] 0) :=
  (c5_apply_addrs_idempotent (Handle.mk false [IpAddr.v4 7] [] []) (World.mk [] 0)
      (IpAddr.v4 7)).2 (Or.inr (by simp))

/-! ## Claim C10 -/

/-- The C10 invariant: the inherited externals and the handle-applied
externals are disjoint. -/
def HandleInv (h : Handle) : Prop :=
  ∀ ip, ip ∈ h.external_ips_added → ip ∉ h.external_ips_were

theorem mem_refreshSplit_fst (node : List NodeAddress) (ip : IpAddr) :
    ip ∈ (refreshSplit node).1 ↔
      ∃ na ∈ node, is_external_ip na = true ∧ parse_ip na = some ip := by
  have key : ∀ (l : List NodeAddress) (acc : List IpAddr × List NodeAddress),
      ip ∈ (l.foldl refreshStep acc).1 ↔
        ip ∈ acc.1 ∨ ∃ na ∈ l, is_external_ip na = true ∧ parse_ip na = some ip := by
    intro l
    induction l with
    | nil => intro acc; simp
    | cons na rest ih =>
        intro acc
        rw [List.foldl_cons]
        by_cases hext : is_external_ip na = true
        · cases hp : parse_ip na with
          | some ip0 =>
              have hstep : refreshStep acc na = (btInsert ip0 acc.1, acc.2) := by
                unfold refreshStep
                rw [if_pos hext, hp]
              rw [hstep, ih]
              simp only [mem_btInsert, List.mem_cons]
              constructor
              · intro hh
                rcases hh with (hh | hh) | hh
                · exact Or.inr ⟨na, Or.inl rfl, hext, by rw [hp, hh]⟩
                · exact Or.inl hh
                · rcases hh with ⟨na', hna', hna'2⟩
                  exact Or.inr ⟨na', Or.inr hna', hna'2⟩
              · intro hh
                rcases hh with hh | ⟨na', hna', hext', hp'⟩
                · exact Or.inl (Or.inr hh)
                · rcases hna' with hna' | hna'
                  · subst hna'
                    rw [hp] at hp'
                    injection hp' with hp''
                    exact Or.inl (Or.inl hp''.symm)
                  · exact Or.inr ⟨na', hna', hext', hp'⟩
          | none =>
              have hstep : refreshStep acc na = (acc.1, acc.2 ++ [na]) := by
                unfold refreshStep
                rw [if_pos hext, hp]
              rw [hstep, ih]
              constructor
              · intro hh
                rcases hh with hh | ⟨na', hna', hna'2⟩
                · exact Or.inl hh
                · exact Or.inr ⟨na', List.mem_cons_of_mem na hna', hna'2⟩
              · intro hh
                rcases hh with hh | ⟨na', hna', hext', hp'⟩
                · exact Or.inl hh
                · rcases List.mem_cons.mp hna' with hna' | hna'
                  · subst hna'
                    rw [hp] at hp'
                    exact absurd hp' (by simp)
                  · exact Or.inr ⟨na', hna', hext', hp'⟩
        · have hstep : refreshStep acc na = (acc.1, acc.2 ++ [na]) := by
            unfold refreshStep
            rw [if_neg hext]
          rw [hstep, ih]
          constructor
          · intro hh
            rcases hh with hh | ⟨na', hna', hna'2⟩
            · exact Or.inl hh
            · exact Or.inr ⟨na', List.mem_cons_of_mem na hna', hna'2⟩
          · intro hh
            rcases hh with hh | ⟨na', hna', hext', hp'⟩
            · exact Or.inl hh
            · rcases List.mem_cons.mp hna' with hna' | hna'
              · subst hna'
                exact absurd hext' hext
              · exact Or.inr ⟨na', hna', hext', hp'⟩
  rw [refreshSplit, key]
  simp

/-- C10: every operation of the handle (construction, refresh, apply_addrs,
remove_unapplied) preserves disjointness of the inherited external set and
the handle-applied external set, and immediately after a refresh every
handle-applied address is present in the node's live address list as a
parseable `ExternalIP`. -/
theorem c10_handle_invariants :
    (∀ (dry : Bool) (w : World), HandleInv (Handle.new dry w)) ∧
    (∀ (h : Handle) (w : World), HandleInv (refresh h w)) ∧
    (∀ (h : Handle) (w : World) (addr : IpAddr), HandleInv h →
      HandleInv (apply_addrs h w addr).1) ∧
    (∀ (h : Handle) (w : World), HandleInv h → HandleInv (remove_unapplied h w).1) ∧
    (∀ (h : Handle) (w : World) (ip : IpAddr), ip ∈ (refresh h w).external_ips_added →
      ∃ na ∈ w.node, is_external_ip na = true ∧ parse_ip na = some ip) := by
  have hrefresh : ∀ (h : Handle) (w : World), HandleInv (refresh h w) := by
    intro h w ip hadd hwere
    simp only [refresh, List.mem_filter, decide_eq_true_eq] at hadd hwere
    exact hwere.2 hadd
  refine ⟨fun dry w => hrefresh _ w, hrefresh, ?_, ?_, ?_⟩
  · intro h w addr hinv
    by_cases hmem : addr ∈ h.external_ips_added ∨ addr ∈ h.external_ips_were
    · have he : apply_addrs h w addr = (h, w) := by
        unfold apply_addrs
        rw [if_pos hmem]
      rw [he]
      exact hinv
    · have he1 : (apply_addrs h w addr).1 =
          { h with external_ips_added := btInsert addr h.external_ips_added } := by
        simp only [apply_addrs]
        rw [if_neg hmem]
      rw [he1]
      intro ip hip
      rcases (mem_btInsert ip addr h.external_ips_added).mp hip with rfl | hip'
      · intro hcon
        exact hmem (Or.inr hcon)
      · exact hinv ip hip'
  · intro h w hinv
    exact hinv
  · intro h w ip hadd
    simp only [refresh, List.mem_filter, decide_eq_true_eq] at hadd
    exact (mem_refreshSplit_fst w.node ip).mp hadd.2

/-- Witness for C10: after applying a fresh address to an empty handle, that
address is not in the inherited set. -/
theorem c10_handle_invariants_witness :
    IpAddr.v4 5 ∉ (apply_addrs (Handle.mk false [] [] []) (World.mk [] 0)
      (IpAddr.v4 5)).1.external_ips_were :=
  c10_handle_invariants.2.2.1 (Handle.mk false [] [] []) (World.mk [] 0) (IpAddr.v4 5)
    (fun ip hip => absurd hip (List.not_mem_nil ip)) (IpAddr.v4 5)
    (by simp [apply_addrs, btInsert])


/-! ## The staged reconciliation operations (modelled from the spec)

`cli/src/cmd_run.rs` drives reconciliation through
`kubem::Manager::stage_address`, `Manager::apply` (returning a map of
`AddrStatus`), `set_dry_run` and `set_remove_unstaged`.  These operations are
code of the repository that is not under `src/` — only their caller
(`cmd_run.rs`) and a superseded `Handle` iteration are — so they are modelled
here from §4.4 of the specification. -/

/-- `kubem::AddrStatus` (declared by the caller in `cmd_run.rs`). -/
inductive AddrStatus
  | New
  | Skipped
  | Removed
deriving DecidableEq, Repr

/-- Modelled from the spec: the reconciliation state of the staged-set
`apply` operation — the node's non-external addresses (preserved verbatim),
the cached live external set (equal to the live set right after a refresh),
the set staged for the current cycle, and the purge/strict and dry-run
flags. -/
structure SpecRecon where
  nonExternal : List NodeAddress
  liveExternal : List IpAddr
  staged : List IpAddr
  purge : Bool
  dry_run : Bool

/-- Modelled from the spec: `apply()`.  Fails (before any network call) if
nothing is staged and purge mode is not requested.  Otherwise walks the live
external set: a staged live external is kept and reported `Skipped` (it is in
the cache, hence not brand-new), an unstaged live external is kept/`Skipped`
with purge off and dropped/`Removed` with purge on; every staged address not
among the current externals is appended and reported `New`.  A single merge
patch is issued only if the computed full list differs from the live one; in
dry-run mode the call never persists. -/
def specApply (st : SpecRecon) (w : World) :
    Except String (List (IpAddr × AddrStatus) × World) :=
  if st.staged = [] ∧ st.purge = false then
    Except.error "nothing staged and purge not requested"
  else
    let keptLive := st.liveExternal.filter (fun e => decide (e ∈ st.staged) || !st.purge)
    let statusesLive := st.liveExternal.map (fun e =>
      if e ∈ st.staged then (e, AddrStatus.Skipped)
      else if st.purge then (e, AddrStatus.Removed) else (e, AddrStatus.Skipped))
    let newsList := st.staged.filter (fun ip => decide (ip ∉ st.liveExternal))
    let statusesNew := newsList.map (fun ip => (ip, AddrStatus.New))
    let full := st.nonExternal ++
      (keptLive ++ newsList).map (fun ip => new_node_address ip TYPE_EXTERNAL_IP)
    let liveFull := st.nonExternal ++
      st.liveExternal.map (fun ip => new_node_address ip TYPE_EXTERNAL_IP)
    let w' := if full ≠ liveFull then
        { node := if st.dry_run then w.node else full, patches := w.patches + 1 }
      else w
    Except.ok (statusesLive ++ statusesNew, w')

/-! ## Claim C3 -/

/-- C3: `apply()` with nothing staged for the current cycle and purge/strict
mode off fails before any network call — it returns the precondition error
and issues no patch (the world is untouched in every interpretation of the
result), so it can never silently strip all ExternalIPs. -/
theorem c3_apply_empty_staged_fails (st : SpecRecon) (w : World)
    (hempty : st.staged = []) (hpurge : st.purge = false) :
    specApply st w = Except.error "nothing staged and purge not requested" ∧
    (∀ res w', specApply st w ≠ Except.ok (res, w')) := by
  have he : specApply st w = Except.error "nothing staged and purge not requested" := by
    unfold specApply
    rw [if_pos ⟨hempty, hpurge⟩]
  exact ⟨he, fun res w' hcon => by rw [he] at hcon; exact Except.noConfusion hcon⟩

/-- Witness for C3 at a concrete state. -/
theorem c3_apply_empty_staged_fails_witness :
    specApply (SpecRecon.mk [] [IpAddr.v4 9] [] false false) (World.mk [] 0) =
      Except.error "nothing staged and purge not requested" :=
  (c3_apply_empty_staged_fails (SpecRecon.mk [] [IpAddr.v4 9] [] false false)
    (World.mk [] 0) rfl rfl).1

/-! ## Claim C4 -/

/-- C4: with purge/strict mode on, live externals `{A, B}` and staged set
`{B, C}` (all distinct), `apply()` reports A `Removed`, B `Skipped`, C `New`,
and patches the node to exactly the non-external addresses plus `{B, C}`. -/
theorem c4_purge_scenario (A B C : IpAddr) (nonExt : List NodeAddress) (w : World)
    (hAB : A ≠ B) (hAC : A ≠ C) (hBC : B ≠ C) :
    specApply (SpecRecon.mk nonExt [A, B] [B, C] true false) w =
      Except.ok ([(A, AddrStatus.Removed), (B, AddrStatus.Skipped), (C, AddrStatus.New)],
        World.mk (nonExt ++ [new_node_address B TYPE_EXTERNAL_IP,
          new_node_address C TYPE_EXTERNAL_IP]) (w.patches + 1)) := by
  have hBA : B ≠ A := hAB.symm
  have hCA : C ≠ A := hAC.symm
  have hCB : C ≠ B := hBC.symm
  have hA : A ∉ ([B, C] : List IpAddr) := by simp [hAB, hAC]
  have hB : B ∈ ([B, C] : List IpAddr) := by simp
  have hfullne : (nonExt ++ [new_node_address B TYPE_EXTERNAL_IP,
        new_node_address C TYPE_EXTERNAL_IP]) ≠
      (nonExt ++ [new_node_address A TYPE_EXTERNAL_IP,
        new_node_address B TYPE_EXTERNAL_IP]) := by
    induction nonExt with
    | nil =>
        simp only [List.nil_append, ne_eq, List.cons.injEq, new_node_address,
          NodeAddress.mk.injEq, RawAddr.ip.injEq]
        intro hcon
        exact hBA hcon.1.1
    | cons x xs ih =>
        simp only [List.cons_append, ne_eq, List.cons.injEq]
        intro hcon
        exact ih hcon.2
  have h1 : (decide (A ∈ ([B, C] : List IpAddr)) || !(true : Bool)) = false := by
    simp [hAB, hAC]
  have h2 : (decide (B ∈ ([B, C] : List IpAddr)) || !(true : Bool)) = true := by simp
  have h3 : decide (B ∉ ([A, B] : List IpAddr)) = false := by simp
  have h4 : decide (C ∉ ([A, B] : List IpAddr)) = true := by simp [hCA, hCB]
  simp only [specApply]
  rw [if_neg (by simp)]
  simp only [List.filter, List.map, h1, h2, h3, h4]
  rw [if_neg hA, if_pos hB]
  simp [hfullne]


/-- Witness for C4 at concrete addresses. -/
theorem c4_purge_scenario_witness :
    specApply (SpecRecon.mk [] [IpAddr.v4 1, IpAddr.v4 2] [IpAddr.v4 2, IpAddr.v4 3] true false)
      (World.mk [] 0) =
      Except.ok ([(IpAddr.v4 1, AddrStatus.Removed), (IpAddr.v4 2, AddrStatus.Skipped),
        (IpAddr.v4 3, AddrStatus.New)],
        World.mk ([] ++ [new_node_address (IpAddr.v4 2) TYPE_EXTERNAL_IP,
          new_node_address (IpAddr.v4 3) TYPE_EXTERNAL_IP]) (0 + 1)) :=
  c4_purge_scenario (IpAddr.v4 1) (IpAddr.v4 2) (IpAddr.v4 3) [] (World.mk [] 0)
    (by decide) (by decide) (by decide)

end Fckloud
